import Mathlib

/-!
Huffman compressor (`src/encoding.cpp`): shallow embedding and checked properties

The C++ program analyses byte frequencies, builds a Huffman tree through a
priority queue, derives a code table by a depth-first walk, and encodes or
decodes a stream against the tree.

Modelling conventions
* An `int` holds a 32-bit value: symbols are small constants, and every count
  or weight that is computed goes through `toInt32`, which keeps a result that
  fits and otherwise yields `INT_MIN`.
* A code (`std::string` over the characters 0 and 1) is a `List Bool`,
  `false` for the character 0 and `true` for the character 1.
* An `istream` is the list of all its bytes together with the bytes not yet
  read; `get()` yields `-1` once the unread part is empty.
* An `ibitstream` positioned after the header is the list of bits still to be
  read; `readBit()` yields `-1` once it is empty.
* Loops whose trip count is not structural carry a fuel argument; running out
  of fuel is the distinct failure `Failure.outOfFuel`.
-/

namespace Huffman

/-! ## Constants and basic types -/

/-- Modelled from the spec: the declaration of the constant `PSEUDO_EOF` is in a
header outside `src/`; the spec reserves one out-of-range sentinel symbol that
never collides with a byte value, and 256 is the first such value. -/
def PSEUDO_EOF : Int := 256

/-- Modelled from the spec: the declaration of the constant `NOT_A_CHAR` is in a
header outside `src/`; it labels internal nodes and is distinct from every byte
value and from the sentinel. -/
def NOT_A_CHAR : Int := 257

/-- One byte of an input or output stream. -/
abbrev Byte := Fin 256

/-- A bit-string code: `false` is the character 0, `true` the character 1. -/
abbrev Code := List Bool

/-- The two ways a run can fail to produce a value. -/
inductive Failure where
  | emptyQueue
  | outOfFuel
  deriving DecidableEq, Repr

deriving instance DecidableEq for Except

/-- The `int` that holds the outcome of a computation whose exact result is
`x`: `x` itself when it fits in 32 bits, and `INT_MIN` otherwise (what
`INT_MAX + 1` wraps to, and what the conversion of an out-of-range `double`
priority to `int` yields). -/
def toInt32 (x : Int) : Int :=
  if -2147483648 ≤ x ∧ x ≤ 2147483647 then x else -2147483648

/-- The value `char(c)` written to an output stream: the low eight bits of `c`. -/
def toChar (c : Int) : Byte := Fin.ofNat (c % 256).toNat

/-! ## HuffmanNode -/

/-- Modelled from the spec: the type `HuffmanNode` is declared outside `src/`; a
node is a leaf (symbol and weight, no children) or an internal node (symbol
field, weight, and exactly two owned children `zero` and `one`). -/
inductive HuffmanNode where
  | leaf (character : Int) (count : Int)
  | node (character : Int) (count : Int) (zero : HuffmanNode) (one : HuffmanNode)
  deriving DecidableEq, Repr

namespace HuffmanNode

/-- The test `zero == nullptr && one == nullptr`. -/
def isLeaf : HuffmanNode → Bool
  | leaf _ _ => true
  | node _ _ _ _ => false

/-- The field `character`. -/
def character : HuffmanNode → Int
  | leaf c _ => c
  | node c _ _ _ => c

/-- The field `count`. -/
def count : HuffmanNode → Int
  | leaf _ n => n
  | node _ n _ _ => n

/-- Leaves in depth-first order (zero-branch first), each with the path of
bits from the root. -/
def leafCodes : HuffmanNode → List (Int × Code)
  | leaf c _ => [(c, [])]
  | node _ _ z o =>
      (leafCodes z).map (fun e => (e.1, false :: e.2)) ++
      (leafCodes o).map (fun e => (e.1, true :: e.2))

/-- Symbols of the leaves in depth-first order. -/
def leafSymbols : HuffmanNode → List Int
  | leaf c _ => [c]
  | node _ _ z o => leafSymbols z ++ leafSymbols o

/-- Leaves as (symbol, weight) pairs in depth-first order. -/
def leafEntries : HuffmanNode → List (Int × Int)
  | leaf c n => [(c, n)]
  | node _ _ z o => leafEntries z ++ leafEntries o

/-- The symbol of the leaf reached by following `p` from the root, when `p`
ends exactly at a leaf. -/
def leafAt : HuffmanNode → Code → Option Int
  | leaf c _, [] => some c
  | leaf _ _, _ :: _ => none
  | node _ _ _ _, [] => none
  | node _ _ z _, false :: p => leafAt z p
  | node _ _ _ o, true :: p => leafAt o p

end HuffmanNode

/-! ## Map<int, int>: the frequency mapping -/

/-- Modelled from the spec: the class `Map` is declared outside `src/`; a
frequency mapping is a list of (symbol, count) pairs with unique keys, iterated
in ascending symbol order. -/
abbrev Map := List (Int × Int)

namespace Map

/-- The statement `m[k]++`: a missing key is first inserted with the value 0. -/
def incr : Map → Int → Map
  | [], k => [(k, 1)]
  | (k', v) :: r, k =>
      if k < k' then (k, 1) :: (k', v) :: r
      else if k = k' then (k', toInt32 (v + 1)) :: r
      else (k', v) :: incr r k

/-- Read access `m[k]` (0 for a missing key). -/
def get : Map → Int → Int
  | [], _ => 0
  | (k', v) :: r, k => if k = k' then v else get r k

/-- Keys in iteration order. -/
def keys (m : Map) : List Int := m.map Prod.fst

/-- The method `size()`. -/
def size (m : Map) : Nat := m.length

/-- Well-formed mapping: keys strictly ascending, hence unique. -/
def WF (m : Map) : Prop := m.keys.Pairwise (fun a b => a < b)

end Map

/-! ## HashMap<int, string>: the code table -/

/-- Modelled from the spec: the class `HashMap` is declared outside `src/`; the
code table maps a symbol to its code, one entry per key. -/
abbrev HashMap := Int → Option Code

namespace HashMap

/-- The empty table. -/
def empty : HashMap := fun _ => none

/-- The method `put(k, v)`: adds the entry or replaces the value of `k`. -/
def put (d : HashMap) (k : Int) (v : Code) : HashMap :=
  fun x => if x = k then some v else d x

/-- The method `containsKey(k)`. -/
def containsKey (d : HashMap) (k : Int) : Bool := (d k).isSome

/-- The value of `d[k]`: the stored code, or the empty string for a missing key. -/
def getD (d : HashMap) (k : Int) : Code := (d k).getD []

/-- The expression `d[k]`: yields the stored code; a missing key is inserted
with the empty string and that is yielded. -/
def index (d : HashMap) (k : Int) : Code × HashMap :=
  match d k with
  | some c => (c, d)
  | none => ([], put d k [])

end HashMap

/-! ## Streams -/

/-- An input byte stream: all its bytes, and the part not yet read. -/
structure IStream where
  all : List Byte
  rest : List Byte
  deriving DecidableEq, Repr

namespace IStream

/-- A stream over `s`, positioned at its start. -/
def ofList (s : List Byte) : IStream := ⟨s, s⟩

/-- The call `input.get()`: the next byte as an int, or -1 at end of stream. -/
def get (s : IStream) : Int × IStream :=
  match s.rest with
  | [] => (-1, s)
  | b :: r => ((b.val : Int), ⟨s.all, r⟩)

/-- The call `rewindStream(input)`. -/
def rewind (s : IStream) : IStream := ⟨s.all, s.all⟩

end IStream

/-- The call `input.readBit()` on the unread bits: 0 or 1, or -1 at end of
stream. -/
def readBit : List Bool → Int × List Bool
  | [] => (-1, [])
  | b :: r => (if b then 1 else 0, r)

/-! ## PriorityQueue<HuffmanNode*> -/

/-- Modelled from the spec: the class `PriorityQueue` is declared outside
`src/`; it is a min-priority queue keyed by weight. The queue is kept in
dequeue order: ascending priority, equal priorities in the order fixed by the
tie-break rule. -/
abbrev PriorityQueue := List (HuffmanNode × Int)

/-- A tie-break rule: `tie x y` tells whether a newly enqueued `x` is dequeued
before an already queued `y` of the same priority. -/
abbrev TieBreak := HuffmanNode → HuffmanNode → Bool

/-- The rule of a queue that serves equal priorities first-in first-out. -/
def fifo : TieBreak := fun _ _ => false

namespace PriorityQueue

/-- Modelled from the spec: `enqueue(value, priority)` of the absent class
`PriorityQueue`; the new entry goes behind every entry of lower priority and
before every entry of higher priority, ties resolved by `tie`. -/
def enqueue (tie : TieBreak) : PriorityQueue → HuffmanNode → Int → PriorityQueue
  | [], v, p => [(v, p)]
  | (w, q) :: r, v, p =>
      if p < q ∨ (p = q ∧ tie v w = true) then (v, p) :: (w, q) :: r
      else (w, q) :: enqueue tie r v p

/-- Modelled from the spec: `dequeue()` of the absent class `PriorityQueue`;
removes and yields the entry of lowest priority, and signals an error on an
empty queue. -/
def dequeue : PriorityQueue → Except Failure (HuffmanNode × PriorityQueue)
  | [] => .error .emptyQueue
  | (v, _) :: r => .ok (v, r)

/-- Modelled from the spec: `peekPriority()` of the absent class
`PriorityQueue`; the lowest priority in the queue, an error when empty. -/
def peekPriority : PriorityQueue → Except Failure Int
  | [] => .error .emptyQueue
  | (_, p) :: _ => .ok p

end PriorityQueue

/-! ## The functions of `encoding.cpp` -/

/-- The scanning loop of `getCharPopulation` on a stream with the bytes `all`,
entered with its unread part: each `get()` yields the first unread byte, moves
the stream past it, and the byte is counted by `charPopulation[charIndex]++`;
once nothing is unread `get()` yields -1 and the loop ends with the stream at
its end. -/
def getCharPopulationLoop (all : List Byte) : List Byte → Map → IStream × Map
  | [], m => (⟨all, []⟩, m)
  | b :: r, m => getCharPopulationLoop all r (m.incr (b.val : Int))

/-- `getCharPopulation(input, charPopulation)`: the scan consumes the stream and
counts every byte read, the sentinel is counted once, and `rewindStream` puts
the consumed stream back at its start. -/
def getCharPopulation (input : IStream) (charPopulation : Map) : IStream × Map :=
  let (input, charPopulation) := getCharPopulationLoop input.all input.rest charPopulation
  let charPopulation := charPopulation.incr PSEUDO_EOF
  (input.rewind, charPopulation)

/-- The mapping `getCharPopulation` yields for a stream over `s`, starting from
an empty mapping. -/
def charPopulationOf (s : List Byte) : Map :=
  (getCharPopulation (IStream.ofList s) []).2

/-- All leaves, as (symbol, weight) pairs, of the trees held in a queue. -/
def PriorityQueue.leafEntries (q : PriorityQueue) : List (Int × Int) :=
  q.flatMap (fun e => e.1.leafEntries)

/-- The first loop of `buildEncodingTreeHelper`: one leaf per key, enqueued with
its count as priority. -/
def enqueueLeaves (tie : TieBreak) (charPopulation : Map) :
    List Int → PriorityQueue → PriorityQueue
  | [], q => q
  | key :: ks, q =>
      enqueueLeaves tie charPopulation ks
        (PriorityQueue.enqueue tie q (.leaf key (charPopulation.get key))
          (charPopulation.get key))

/-- The merging loop of `buildEncodingTreeHelper`: while the queue holds more
than one node, the two first nodes are dequeued and their parent enqueued; the
sum of the two priorities is held in the `int tempPriority`, hence `toInt32`. -/
def mergeLoop (tie : TieBreak) : Nat → PriorityQueue → Except Failure PriorityQueue
  | 0, huffPQ => if huffPQ.length > 1 then .error .outOfFuel else .ok huffPQ
  | fuel + 1, huffPQ =>
      if huffPQ.length > 1 then do
        let tempPriority ← PriorityQueue.peekPriority huffPQ
        let (child1, huffPQ) ← PriorityQueue.dequeue huffPQ
        let tempPriority := toInt32 (tempPriority + (← PriorityQueue.peekPriority huffPQ))
        let (child2, huffPQ) ← PriorityQueue.dequeue huffPQ
        let parent := HuffmanNode.node NOT_A_CHAR tempPriority child1 child2
        mergeLoop tie fuel (PriorityQueue.enqueue tie huffPQ parent tempPriority)
      else .ok huffPQ

/-- `buildEncodingTreeHelper(charPopulation, encodingTree)`: the tree, or the
error of dequeueing from an empty queue. -/
def buildEncodingTreeHelper (tie : TieBreak) (charPopulation : Map) :
    Except Failure HuffmanNode := do
  let huffPQ := enqueueLeaves tie charPopulation charPopulation.keys []
  let huffPQ ← mergeLoop tie huffPQ.length huffPQ
  let (encodingTree, _) ← PriorityQueue.dequeue huffPQ
  return encodingTree

/-- `buildEncodingTree(input)`: a fresh mapping from a scan of the input, then
the tree built from it. -/
def buildEncodingTree (tie : TieBreak) (input : IStream) :
    Except Failure (IStream × HuffmanNode) := do
  let (input, charPopulation) := getCharPopulation input []
  let encodingTree ← buildEncodingTreeHelper tie charPopulation
  return (input, encodingTree)

/-- The table after `put(symbol, dataCode ++ path)` for each listed leaf in turn. -/
def putAll (d : HashMap) (dataCode : Code) (l : List (Int × Code)) : HashMap :=
  l.foldl (fun d e => d.put e.1 (dataCode ++ e.2)) d

/-- `getDataCodeDict(encodingTree, dataCodeDict, dataCode)`: both reference
parameters are threaded through; a bit is appended before each descent and
removed again after it. -/
def getDataCodeDict : HuffmanNode → HashMap → Code → HashMap × Code
  | .leaf character _, dataCodeDict, dataCode =>
      (dataCodeDict.put character dataCode, dataCode)
  | .node _ _ zero one, dataCodeDict, dataCode =>
      let dataCode := dataCode ++ [false]
      let (dataCodeDict, dataCode) := getDataCodeDict zero dataCodeDict dataCode
      let dataCode := dataCode.dropLast
      let dataCode := dataCode ++ [true]
      let (dataCodeDict, dataCode) := getDataCodeDict one dataCodeDict dataCode
      let dataCode := dataCode.dropLast
      (dataCodeDict, dataCode)

/-- The code table `encodeData` works with: `getDataCodeDict` run on an empty
table and an empty `dataCode`. -/
def codeTable (encodingTree : HuffmanNode) : HashMap :=
  (getDataCodeDict encodingTree HashMap.empty []).1

/-- The concatenation, in order, of the codes the table `d` yields for the
bytes of `s` (the empty code for a byte without entry). -/
def concatCodes (d : HashMap) (s : List Byte) : List Bool :=
  (s.map (fun b => d.getD (b.val : Int))).flatten

/-- The loop of `encodeData`, entered with the current `charIndex` and
`endOfFile`; yields the bits written. -/
def encodeDataLoop : Nat → Int → Bool → IStream → HashMap → List Bool →
    Except Failure (List Bool)
  | 0, charIndex, endOfFile, _, _, output =>
      if charIndex ≠ -1 ∨ endOfFile = false then .error .outOfFuel else .ok output
  | fuel + 1, charIndex, endOfFile, input, dataCodeDict, output =>
      if charIndex ≠ -1 ∨ endOfFile = false then
        let endOfFile := if charIndex = -1 then true else endOfFile
        let charIndex := if charIndex = -1 then PSEUDO_EOF else charIndex
        let (currentCode, dataCodeDict) := dataCodeDict.index charIndex
        let output := output ++ currentCode
        let (charIndex, input) := input.get
        encodeDataLoop fuel charIndex endOfFile input dataCodeDict output
      else .ok output

/-- `encodeData(input, encodingTree, output)`: the bits written to `output`. -/
def encodeData (input : IStream) (encodingTree : HuffmanNode) :
    Except Failure (List Bool) :=
  let (dataCodeDict, _) := getDataCodeDict encodingTree HashMap.empty []
  let (charIndex, input) := input.get
  let endOfFile : Bool := decide (charIndex = -1)
  encodeDataLoop (input.rest.length + 2) charIndex endOfFile input dataCodeDict []

/-- `decodeDataHelper(input, encodingTree)`: the symbol reached and the bits
left unread. -/
def decodeDataHelper : List Bool → HuffmanNode → Int × List Bool
  | input, .leaf character _ => (character, input)
  | input, .node _ _ zero one =>
      let (currentDigit, input) := readBit input
      if currentDigit = -1 then (PSEUDO_EOF, input)
      else if currentDigit = 0 then decodeDataHelper input zero
      else decodeDataHelper input one

/-- The loop of `decodeData`, entered with `currentChar`; yields the values of
`currentChar` handed to `output <<` and the bits left unread. -/
def decodeDataLoop (encodingTree : HuffmanNode) :
    Nat → Int → List Bool → List Int → Except Failure (List Int × List Bool)
  | 0, currentChar, input, written =>
      if currentChar ≠ PSEUDO_EOF then .error .outOfFuel else .ok (written, input)
  | fuel + 1, currentChar, input, written =>
      if currentChar ≠ PSEUDO_EOF then
        let written := written ++ [currentChar]
        let (currentChar, input) := decodeDataHelper input encodingTree
        decodeDataLoop encodingTree fuel currentChar input written
      else .ok (written, input)

/-- The symbols `decodeData` hands to `output <<`, in order, with the bits left
unread; `fuel` bounds the number of loop iterations. -/
def decodeDataSymbols (fuel : Nat) (input : List Bool) (encodingTree : HuffmanNode) :
    Except Failure (List Int × List Bool) :=
  let (currentChar, input) := decodeDataHelper input encodingTree
  decodeDataLoop encodingTree fuel currentChar input []

/-- `decodeData(input, encodingTree, output)`: the bytes written to `output`
(each symbol cast to `char`) and the bits left unread. -/
def decodeData (fuel : Nat) (input : List Bool) (encodingTree : HuffmanNode) :
    Except Failure (List Byte × List Bool) :=
  (decodeDataSymbols fuel input encodingTree).map (fun r => (r.1.map toChar, r.2))

/-- What `compress` writes: the header mapping and the payload bits. -/
structure Container where
  header : Map
  payload : List Bool
  deriving DecidableEq, Repr

/-- `compress(input, output)`: the header written, then the bits of
`encodeData` against the tree of `buildEncodingTree`. -/
def compress (tie : TieBreak) (input : IStream) : Except Failure Container := do
  let (input, charPopulation) := getCharPopulation input []
  let header := charPopulation
  let (input, encodingTree) ← buildEncodingTree tie input
  let payload ← encodeData input encodingTree
  return ⟨header, payload⟩

/-- What `uncompress` did: it either skipped decoding, or built a tree and ran
the decoder on it. -/
inductive Trace where
  | skipped
  | decoded (encodingTree : HuffmanNode) (unread : List Bool)
  deriving DecidableEq, Repr

/-- `uncompress(input, output)` with its trace: the header mapping is read, and
only a mapping of more than one entry is decoded. -/
def uncompressTrace (tie : TieBreak) (fuel : Nat) (charPopulation : Map)
    (input : List Bool) : Except Failure (List Byte × Trace) :=
  if charPopulation.size > 1 then do
    let encodingTree ← buildEncodingTreeHelper tie charPopulation
    let (output, input) ← decodeData fuel input encodingTree
    return (output, .decoded encodingTree input)
  else .ok ([], .skipped)

/-- `uncompress(input, output)`: the bytes written to `output`. -/
def uncompress (tie : TieBreak) (fuel : Nat) (charPopulation : Map)
    (input : List Bool) : Except Failure (List Byte) :=
  (uncompressTrace tie fuel charPopulation input).map Prod.fst

/-- The node reached by following `p` from the root, when `p` does not run past
a leaf. -/
def HuffmanNode.subtree : HuffmanNode → Code → Option HuffmanNode
  | t, [] => some t
  | .leaf _ _, _ :: _ => none
  | .node _ _ z _, false :: p => HuffmanNode.subtree z p
  | .node _ _ _ o, true :: p => HuffmanNode.subtree o p

/-- Every internal node's weight is the sum of the weights of its two
children. -/
def HuffmanNode.weightsAdd : HuffmanNode → Prop
  | .leaf _ _ => True
  | .node _ n z o => n = z.count + o.count ∧ HuffmanNode.weightsAdd z ∧ HuffmanNode.weightsAdd o

/-- The number of internal nodes. -/
def HuffmanNode.internalCount : HuffmanNode → Nat
  | .leaf _ _ => 0
  | .node _ _ z o => HuffmanNode.internalCount z + HuffmanNode.internalCount o + 1

/-- One iteration of the merging loop of `buildEncodingTreeHelper` on a queue
of two or more nodes. -/
def mergeStep (tie : TieBreak) : PriorityQueue → PriorityQueue
  | (c1, p1) :: (c2, p2) :: r =>
      PriorityQueue.enqueue tie r (.node NOT_A_CHAR (toInt32 (p1 + p2)) c1 c2) (toInt32 (p1 + p2))
  | q => q

/-- The pairs (weight of the zero child, weight of the one child) of all the
internal nodes of a tree. -/
def HuffmanNode.merges : HuffmanNode → List (Int × Int)
  | .leaf _ _ => []
  | .node _ _ z o => (z.count, o.count) :: (HuffmanNode.merges z ++ HuffmanNode.merges o)

/-- No leaf of the tree has a negative weight. -/
def HuffmanNode.nonneg (t : HuffmanNode) : Prop := ∀ e ∈ t.leafEntries, 0 ≤ e.2

/-- Two pairs of weights of which one lies wholly below the other. -/
def Separated (a b : Int × Int) : Prop :=
  (a.1 ≤ b.1 ∧ a.1 ≤ b.2 ∧ a.2 ≤ b.1 ∧ a.2 ≤ b.2) ∨
    (b.1 ≤ a.1 ∧ b.1 ≤ a.2 ∧ b.2 ≤ a.1 ∧ b.2 ≤ a.2)

/-- The child pairs of all the internal nodes of the trees held in a queue. -/
def PriorityQueue.merges (q : PriorityQueue) : List (Int × Int) :=
  q.flatMap (fun e => e.1.merges)

/-- The state of the queue during `buildEncodingTreeHelper`: entries in
ascending priority; each priority is the weight of its tree; weights add up and
leaf weights are not negative; the child pairs of any two internal nodes are
separated; and no child is heavier than a tree still in the queue. -/
def PriorityQueue.HuffInv (q : PriorityQueue) : Prop :=
  q.Pairwise (fun a b => a.2 ≤ b.2) ∧
    (∀ e ∈ q, e.1.count = e.2 ∧ e.1.weightsAdd ∧ e.1.nonneg) ∧
    (PriorityQueue.merges q).Pairwise Separated ∧
    (∀ a ∈ PriorityQueue.merges q, ∀ e ∈ q, a.1 ≤ e.2 ∧ a.2 ≤ e.2)

/-- The sum of the weights of all the leaves of the trees held in a queue. -/
def PriorityQueue.total (q : PriorityQueue) : Int :=
  ((PriorityQueue.leafEntries q).map Prod.snd).sum

/-! ## The frequency mapping: auxiliary facts -/

theorem Map.keys_incr (m : Map) (k x : Int) :
    x ∈ (m.incr k).keys ↔ x = k ∨ x ∈ m.keys := by
  induction m with
  | nil => simp [Map.incr, Map.keys]
  | cons e r ih =>
    obtain ⟨k', v⟩ := e
    unfold Map.incr
    by_cases h1 : k < k'
    · simp [h1, Map.keys]
    · by_cases h2 : k = k'
      · subst h2
        simp [Map.keys]
      · simp only [h1, h2, if_false]
        have ih2 : x ∈ List.map Prod.fst (Map.incr r k) ↔ x = k ∨ x ∈ List.map Prod.fst r := ih
        simp only [Map.keys, List.map_cons, List.mem_cons, ih2]
        tauto

theorem Map.get_eq_zero (m : Map) (k : Int) (h : k ∉ m.keys) : m.get k = 0 := by
  induction m with
  | nil => rfl
  | cons e r ih =>
    obtain ⟨k', v⟩ := e
    simp only [Map.keys, List.map_cons, List.mem_cons, not_or] at h
    simp only [Map.get, h.1, if_false]
    exact ih h.2

theorem Map.wf_incr (m : Map) (k : Int) (h : m.WF) : (m.incr k).WF := by
  induction m with
  | nil => simp [Map.incr, Map.WF, Map.keys]
  | cons e r ih =>
    obtain ⟨k', v⟩ := e
    have hr : Map.WF r := by
      simp only [Map.WF, Map.keys, List.map_cons, List.pairwise_cons] at h
      exact h.2
    have hk : ∀ y ∈ Map.keys r, k' < y := by
      simp only [Map.WF, Map.keys, List.map_cons, List.pairwise_cons] at h
      exact h.1
    unfold Map.incr
    by_cases h1 : k < k'
    · simp only [h1, if_true, Map.WF, Map.keys, List.map_cons, List.pairwise_cons]
      refine ⟨?_, ?_, hr⟩
      · intro y hy
        rcases List.mem_cons.1 hy with rfl | hy
        · exact h1
        · exact lt_trans h1 (hk y hy)
      · exact hk
    · by_cases h2 : k = k'
      · subst h2
        simpa [Map.WF, Map.keys] using h
      · simp only [h1, h2, if_false]
        have hlt : k' < k := lt_of_le_of_ne (not_lt.1 h1) (Ne.symm h2)
        have ih2 := ih hr
        simp only [Map.WF, Map.keys, List.map_cons, List.pairwise_cons]
        refine ⟨?_, ih2⟩
        intro y hy
        rcases (Map.keys_incr r k y).1 hy with rfl | hy
        · exact hlt
        · exact hk y hy

theorem toInt32_of_inRange (x : Int) (h1 : -2147483648 ≤ x) (h2 : x ≤ 2147483647) :
    toInt32 x = x := by
  simp [toInt32, h1, h2]

theorem toInt32_one : toInt32 (0 + 1) = 1 := by
  decide

theorem Map.get_incr (m : Map) (k x : Int) (h : m.WF) :
    (m.incr k).get x = if x = k then toInt32 (m.get k + 1) else m.get x := by
  induction m with
  | nil =>
    by_cases hx : x = k
    · simp only [Map.incr, Map.get, hx, if_true]
      exact toInt32_one.symm
    · simp [Map.incr, Map.get, hx]
  | cons e r ih =>
    obtain ⟨k', v⟩ := e
    have hr : Map.WF r := by
      simp only [Map.WF, Map.keys, List.map_cons, List.pairwise_cons] at h
      exact h.2
    have hk : ∀ y ∈ Map.keys r, k' < y := by
      simp only [Map.WF, Map.keys, List.map_cons, List.pairwise_cons] at h
      exact h.1
    unfold Map.incr
    by_cases h1 : k < k'
    · have hne : k ≠ k' := ne_of_lt h1
      have hnot : k ∉ Map.keys r := fun hin => lt_asymm h1 (hk k hin)
      have h0 : Map.get r k = 0 := Map.get_eq_zero r k hnot
      by_cases hx : x = k
      · subst hx
        simp only [h1, if_true, Map.get, hne, if_false, h0]
        exact toInt32_one.symm
      · simp [h1, Map.get, hx]
    · by_cases h2 : k = k'
      · subst h2
        by_cases hx : x = k <;> simp [Map.get, hx]
      · simp only [h1, h2, if_false, Map.get]
        by_cases hx' : x = k'
        · have hxk : x ≠ k := fun hh => h2 (hh ▸ hx')
          simp [hx', hxk, Ne.symm h2]
        · simp only [hx', if_false]
          exact ih hr

theorem getCharPopulationLoop_fst (all s : List Byte) (m : Map) :
    (getCharPopulationLoop all s m).1 = ⟨all, []⟩ := by
  induction s generalizing m with
  | nil => rfl
  | cons b r ih => exact ih _

theorem getCharPopulationLoop_append (all s1 s2 : List Byte) (m : Map) :
    getCharPopulationLoop all (s1 ++ s2) m =
      getCharPopulationLoop all s2 (getCharPopulationLoop all s1 m).2 := by
  induction s1 generalizing m with
  | nil => rfl
  | cons b r ih => exact ih _

theorem getCharPopulationLoop_wf (all s : List Byte) (m : Map) (h : m.WF) :
    (getCharPopulationLoop all s m).2.WF := by
  induction s generalizing m with
  | nil => exact h
  | cons b r ih => exact ih _ (Map.wf_incr m _ h)

theorem getCharPopulationLoop_keys (all s : List Byte) (m : Map) (x : Int) :
    x ∈ (getCharPopulationLoop all s m).2.keys ↔
      x ∈ m.keys ∨ ∃ b ∈ s, (b.val : Int) = x := by
  induction s generalizing m with
  | nil => simp [getCharPopulationLoop]
  | cons b r ih =>
    simp only [getCharPopulationLoop, ih, Map.keys_incr, List.mem_cons, exists_eq_or_imp]
    constructor
    · rintro ((h | h) | h)
      · exact Or.inr (Or.inl h.symm)
      · exact Or.inl h
      · exact Or.inr (Or.inr h)
    · rintro (h | h | h)
      · exact Or.inl (Or.inr h)
      · exact Or.inl (Or.inl h.symm)
      · exact Or.inr h

theorem getCharPopulationLoop_get (all s : List Byte) (m : Map) (h : m.WF) (x : Int)
    (h0 : 0 ≤ m.get x)
    (hmax : m.get x + ((s.map (fun b => (b.val : Int))).count x : Int) ≤ 2147483647) :
    (getCharPopulationLoop all s m).2.get x =
      m.get x + ((s.map (fun b => (b.val : Int))).count x : Int) := by
  induction s generalizing m with
  | nil => simp [getCharPopulationLoop]
  | cons b r ih =>
    simp only [getCharPopulationLoop, List.map_cons]
    simp only [List.map_cons, List.count_cons] at hmax
    have hstep := Map.get_incr m (b.val : Int) x h
    by_cases hx : x = (b.val : Int)
    · subst hx
      simp only [beq_self_eq_true, if_true, Nat.cast_add, Nat.cast_one] at hmax
      have hin : toInt32 (m.get (b.val : Int) + 1) = m.get (b.val : Int) + 1 :=
        toInt32_of_inRange _ (by omega) (by omega)
      simp only [if_true, hin] at hstep
      rw [ih _ (Map.wf_incr m _ h) (by rw [hstep]; omega) (by rw [hstep]; omega), hstep,
        List.count_cons]
      simp
      ring
    · have hx2 : ¬ ((b.val : Int) = x) := fun hh => hx hh.symm
      simp only [hx, if_false] at hstep
      have hb : ((b.val : Int) == x) = false := by simp [hx2]
      simp only [hb, Bool.false_eq_true, if_false, add_zero] at hmax
      rw [ih _ (Map.wf_incr m _ h) (by rw [hstep]; exact h0) (by rw [hstep]; exact hmax),
        hstep, List.count_cons]
      simp [hb]

theorem byte_ne_PSEUDO_EOF (b : Byte) : (b.val : Int) ≠ PSEUDO_EOF := by
  have := b.isLt
  unfold PSEUDO_EOF
  omega

theorem byte_ne_neg_one (b : Byte) : (b.val : Int) ≠ -1 := by
  omega

theorem count_map_val (s : List Byte) (b : Byte) :
    (s.map (fun c => (c.val : Int))).count (b.val : Int) = s.count b := by
  induction s with
  | nil => rfl
  | cons c r ih =>
    simp only [List.map_cons, List.count_cons, ih]
    have : ((c.val : Int) == (b.val : Int)) = (c == b) := by
      by_cases hcb : c = b
      · subst hcb; simp
      · have : (c.val : Int) ≠ (b.val : Int) := by
          intro hh
          apply hcb
          apply Fin.ext
          exact_mod_cast hh
        simp [hcb, this]
    rw [this]

/-! ## The code table: auxiliary facts -/

theorem putAll_append (d : HashMap) (c : Code) (l1 l2 : List (Int × Code)) :
    putAll d c (l1 ++ l2) = putAll (putAll d c l1) c l2 := by
  simp [putAll, List.foldl_append]

theorem putAll_map_cons (d : HashMap) (c : Code) (b : Bool) (l : List (Int × Code)) :
    putAll d c (l.map (fun e => (e.1, b :: e.2))) = putAll d (c ++ [b]) l := by
  induction l generalizing d with
  | nil => rfl
  | cons e r ih =>
    simp only [putAll, List.map_cons, List.foldl_cons] at ih ⊢
    rw [ih]
    simp

theorem getDataCodeDict_eq (t : HuffmanNode) (d : HashMap) (c : Code) :
    getDataCodeDict t d c = (putAll d c t.leafCodes, c) := by
  induction t generalizing d c with
  | leaf s n => simp [getDataCodeDict, putAll, HuffmanNode.leafCodes]
  | node s n z o ihz iho =>
    simp only [getDataCodeDict, ihz, iho, HuffmanNode.leafCodes, putAll_append,
      putAll_map_cons, List.dropLast_concat]

theorem codeTable_eq (t : HuffmanNode) :
    codeTable t = putAll HashMap.empty [] t.leafCodes := by
  simp [codeTable, getDataCodeDict_eq]

theorem putAll_some (l : List (Int × Code)) (d : HashMap) (c : Code) (s : Int) (p : Code)
    (h : putAll d c l s = some p) :
    d s = some p ∨ ∃ q, (s, q) ∈ l ∧ p = c ++ q := by
  induction l generalizing d with
  | nil => exact Or.inl h
  | cons e r ih =>
    simp only [putAll, List.foldl_cons] at h
    rcases ih (d.put e.1 (c ++ e.2)) h with h1 | ⟨q, hq, hp⟩
    · by_cases hs : s = e.1
      · right
        refine ⟨e.2, ?_, ?_⟩
        · subst hs
          exact List.mem_cons_self _ _
        · simp only [HashMap.put, hs, if_true, Option.some.injEq] at h1
          exact h1.symm
      · left
        simpa [HashMap.put, hs] using h1
    · exact Or.inr ⟨q, List.mem_cons_of_mem _ hq, hp⟩

theorem putAll_isSome (l : List (Int × Code)) (d : HashMap) (c : Code) (s : Int)
    (h : (d s).isSome ∨ s ∈ l.map Prod.fst) : (putAll d c l s).isSome := by
  induction l generalizing d with
  | nil => simpa [putAll] using h
  | cons e r ih =>
    simp only [putAll, List.foldl_cons]
    apply ih
    by_cases hs : s = e.1
    · left
      simp [HashMap.put, hs]
    · rcases h with h | h
      · left
        simpa [HashMap.put, hs] using h
      · right
        simpa [hs] using h

theorem leafCodes_fst (t : HuffmanNode) : t.leafCodes.map Prod.fst = t.leafSymbols := by
  induction t with
  | leaf s n => rfl
  | node s n z o ihz iho =>
    simp [HuffmanNode.leafCodes, HuffmanNode.leafSymbols, ← ihz, ← iho, Function.comp_def]

theorem leafAt_of_mem_leafCodes (t : HuffmanNode) (s : Int) (p : Code)
    (h : (s, p) ∈ t.leafCodes) : t.leafAt p = some s := by
  induction t generalizing p with
  | leaf c n =>
    simp only [HuffmanNode.leafCodes, List.mem_singleton, Prod.mk.injEq] at h
    obtain ⟨rfl, rfl⟩ := h
    rfl
  | node c n z o ihz iho =>
    simp only [HuffmanNode.leafCodes, List.mem_append, List.mem_map, Prod.mk.injEq] at h
    rcases h with ⟨e, he, rfl, rfl⟩ | ⟨e, he, rfl, rfl⟩
    · exact ihz _ he
    · exact iho _ he

theorem leafAt_append (t : HuffmanNode) (p r : Code) (a b : Int)
    (h1 : t.leafAt p = some a) (h2 : t.leafAt (p ++ r) = some b) : r = [] ∧ a = b := by
  induction t generalizing p with
  | leaf c n =>
    cases p with
    | nil =>
      cases r with
      | nil =>
        simp only [HuffmanNode.leafAt, List.append_nil, Option.some.injEq] at h1 h2
        exact ⟨rfl, h1 ▸ h2⟩
      | cons x r => simp [HuffmanNode.leafAt] at h2
    | cons x p => simp [HuffmanNode.leafAt] at h1
  | node c n z o ihz iho =>
    cases p with
    | nil => simp [HuffmanNode.leafAt] at h1
    | cons x p =>
      cases x with
      | false => exact ihz p h1 h2
      | true => exact iho p h1 h2

theorem codeTable_leafAt (t : HuffmanNode) (s : Int) (p : Code)
    (h : codeTable t s = some p) : t.leafAt p = some s := by
  rw [codeTable_eq] at h
  rcases putAll_some _ _ _ _ _ h with h1 | ⟨q, hq, hp⟩
  · simp [HashMap.empty] at h1
  · simp only [List.nil_append] at hp
    rw [hp]
    exact leafAt_of_mem_leafCodes t s q hq

theorem codeTable_isSome (t : HuffmanNode) (s : Int) (h : s ∈ t.leafSymbols) :
    (codeTable t s).isSome := by
  rw [codeTable_eq]
  apply putAll_isSome
  right
  rw [leafCodes_fst]
  exact h

theorem codeTable_none (t : HuffmanNode) (s : Int) (h : s ∉ t.leafSymbols) :
    codeTable t s = none := by
  cases hc : codeTable t s with
  | none => rfl
  | some p =>
    exfalso
    rw [codeTable_eq] at hc
    rcases putAll_some _ _ _ _ _ hc with h1 | ⟨q, hq, _⟩
    · simp [HashMap.empty] at h1
    · apply h
      rw [← leafCodes_fst]
      exact List.mem_map.2 ⟨(s, q), hq, rfl⟩

theorem leafAt_getD_codeTable (t : HuffmanNode) (s : Int) (h : s ∈ t.leafSymbols) :
    t.leafAt ((codeTable t).getD s) = some s := by
  have h1 := codeTable_isSome t s h
  cases hc : codeTable t s with
  | none => simp [hc] at h1
  | some p =>
    simp only [HashMap.getD, hc, Option.getD_some]
    exact codeTable_leafAt t s p hc

/-! ## The encoder: auxiliary facts -/

theorem HashMap.index_fst (d : HashMap) (k : Int) : (d.index k).1 = d.getD k := by
  unfold HashMap.index HashMap.getD
  cases d k <;> rfl

theorem HashMap.getD_index_snd (d : HashMap) (k : Int) :
    HashMap.getD (d.index k).2 = HashMap.getD d := by
  funext x
  unfold HashMap.index HashMap.getD
  cases h : d k with
  | some c => rfl
  | none =>
    by_cases hx : x = k
    · subst hx
      simp [HashMap.put, h]
    · simp [HashMap.put, hx]

theorem concatCodes_index (d : HashMap) (k : Int) (s : List Byte) :
    concatCodes (d.index k).2 s = concatCodes d s := by
  unfold concatCodes
  have h := HashMap.getD_index_snd d k
  have h2 : (fun b : Byte => HashMap.getD (d.index k).2 (b.val : Int)) =
      (fun b : Byte => HashMap.getD d (b.val : Int)) := by
    funext b
    exact congrFun h _
  rw [h2]

theorem encodeDataLoop_done (fuel : Nat) (input : IStream) (d : HashMap) (out : List Bool) :
    encodeDataLoop fuel (-1) true input d out = .ok out := by
  cases fuel <;> simp [encodeDataLoop]

theorem encodeDataLoop_sentinel (fuel : Nat) (input : IStream) (d : HashMap) (out : List Bool)
    (hr : input.rest = []) :
    encodeDataLoop (fuel + 1) (-1) false input d out = .ok (out ++ d.getD PSEUDO_EOF) := by
  have hg : input.get = (-1, input) := by simp [IStream.get, hr]
  simp only [encodeDataLoop, hg, HashMap.index_fst]
  simp [encodeDataLoop_done]

theorem encodeDataLoop_bytes (r : List Byte) :
    ∀ (b : Byte) (fuel : Nat) (input : IStream) (d : HashMap) (out : List Bool),
      input.rest = r → r.length + 2 ≤ fuel →
      encodeDataLoop fuel (b.val : Int) false input d out =
        .ok (out ++ d.getD (b.val : Int) ++ concatCodes d r ++ d.getD PSEUDO_EOF) := by
  induction r with
  | nil =>
    intro b fuel input d out hr hf
    obtain ⟨f, rfl⟩ : ∃ f, fuel = f + 2 := ⟨fuel - 2, by simp at hf; omega⟩
    have hg : input.get = (-1, input) := by simp [IStream.get, hr]
    have hb := byte_ne_neg_one b
    rw [encodeDataLoop]
    simp only [hb, hg, ne_eq, not_false_eq_true, true_or, if_true, if_false]
    rw [encodeDataLoop_sentinel _ _ _ _ hr, HashMap.index_fst, HashMap.getD_index_snd]
    simp [concatCodes]
  | cons b' r' ih =>
    intro b fuel input d out hr hf
    obtain ⟨f, rfl⟩ : ∃ f, fuel = f + 1 := ⟨fuel - 1, by simp at hf; omega⟩
    have hg : input.get = ((b'.val : Int), ⟨input.all, r'⟩) := by simp [IStream.get, hr]
    have hb := byte_ne_neg_one b
    rw [encodeDataLoop]
    simp only [hb, hg, ne_eq, not_false_eq_true, true_or, if_true, if_false]
    rw [ih b' f ⟨input.all, r'⟩ _ _ rfl (by simp at hf ⊢; omega), HashMap.index_fst,
      HashMap.getD_index_snd, concatCodes_index]
    simp [concatCodes, List.append_assoc]

theorem encodeData_eq (input : IStream) (t : HuffmanNode) :
    encodeData input t =
      .ok (if input.rest = [] then []
        else concatCodes (codeTable t) input.rest ++ (codeTable t).getD PSEUDO_EOF) := by
  unfold encodeData
  cases hr : input.rest with
  | nil =>
    have hg : input.get = (-1, input) := by simp [IStream.get, hr]
    simp only [hg, decide_True, encodeDataLoop_done, if_true]
  | cons b r =>
    have hg : input.get = ((b.val : Int), ⟨input.all, r⟩) := by simp [IStream.get, hr]
    have hb := byte_ne_neg_one b
    simp only [hg, hb, decide_False]
    rw [encodeDataLoop_bytes r b _ _ _ _ rfl (le_refl _)]
    simp [concatCodes, codeTable]

/-! ## The decoder: auxiliary facts -/

theorem decodeDataHelper_leafAt (t : HuffmanNode) (p rest : List Bool) (s : Int)
    (h : t.leafAt p = some s) : decodeDataHelper (p ++ rest) t = (s, rest) := by
  induction t generalizing p with
  | leaf c n =>
    cases p with
    | nil =>
      simp only [HuffmanNode.leafAt, Option.some.injEq] at h
      simp [decodeDataHelper, h]
    | cons x p => simp [HuffmanNode.leafAt] at h
  | node c n z o ihz iho =>
    cases p with
    | nil => simp [HuffmanNode.leafAt] at h
    | cons x p =>
      cases x with
      | false =>
        simp only [HuffmanNode.leafAt] at h
        simp [decodeDataHelper, readBit, ihz p h]
      | true =>
        simp only [HuffmanNode.leafAt] at h
        simp [decodeDataHelper, readBit, iho p h]

theorem decodeDataHelper_nil_node (c n : Int) (z o : HuffmanNode) :
    decodeDataHelper [] (.node c n z o) = (PSEUDO_EOF, []) := by
  simp [decodeDataHelper, readBit]

theorem decodeDataLoop_done (t : HuffmanNode) (fuel : Nat) (input : List Bool)
    (written : List Int) :
    decodeDataLoop t fuel PSEUDO_EOF input written = .ok (written, input) := by
  cases fuel <;> simp [decodeDataLoop]

theorem decodeDataLoop_codes (t : HuffmanNode) (code : Byte → Code) (tail rest : List Bool)
    (htail : decodeDataHelper tail t = (PSEUDO_EOF, rest)) (s : List Byte) :
    ∀ (fuel : Nat) (written : List Int),
      (∀ b ∈ s, t.leafAt (code b) = some (b.val : Int)) → s.length ≤ fuel →
      decodeDataLoop t fuel (decodeDataHelper ((s.map code).flatten ++ tail) t).1
          (decodeDataHelper ((s.map code).flatten ++ tail) t).2 written =
        .ok (written ++ s.map (fun b => (b.val : Int)), rest) := by
  induction s with
  | nil =>
    intro fuel written _ _
    simp [htail, decodeDataLoop_done]
  | cons b r ih =>
    intro fuel written hs hf
    obtain ⟨f, rfl⟩ : ∃ f, fuel = f + 1 := ⟨fuel - 1, by simp at hf; omega⟩
    have hb : t.leafAt (code b) = some (b.val : Int) := hs b (List.mem_cons_self _ _)
    have hstep : decodeDataHelper (((b :: r).map code).flatten ++ tail) t =
        ((b.val : Int), (r.map code).flatten ++ tail) := by
      simp only [List.map_cons, List.flatten_cons, List.append_assoc]
      exact decodeDataHelper_leafAt t _ _ _ hb
    rw [hstep]
    have hne := byte_ne_PSEUDO_EOF b
    rw [decodeDataLoop]
    simp only [hne, ne_eq, not_false_eq_true, if_true]
    rw [ih f _ (fun b' hb' => hs b' (List.mem_cons_of_mem _ hb')) (by simp at hf; omega)]
    simp

theorem toChar_val (b : Byte) : toChar (b.val : Int) = b := by
  apply Fin.ext
  have := b.isLt
  simp only [toChar, Fin.ofNat, Fin.val_mk]
  omega

theorem map_toChar_val (s : List Byte) : (s.map (fun b => (b.val : Int))).map toChar = s := by
  induction s with
  | nil => rfl
  | cons b r ih => simp only [List.map_cons, toChar_val, ih]

/-! ## The tree builder: auxiliary facts -/

theorem PriorityQueue.enqueue_perm (tie : TieBreak) (q : PriorityQueue) (v : HuffmanNode)
    (p : Int) : (PriorityQueue.enqueue tie q v p).Perm ((v, p) :: q) := by
  induction q with
  | nil => exact List.Perm.refl _
  | cons e r ih =>
    obtain ⟨w, pw⟩ := e
    unfold PriorityQueue.enqueue
    split
    · exact List.Perm.refl _
    · exact (List.Perm.cons _ ih).trans (List.Perm.swap _ _ _)

theorem PriorityQueue.enqueue_length (tie : TieBreak) (q : PriorityQueue) (v : HuffmanNode)
    (p : Int) : (PriorityQueue.enqueue tie q v p).length = q.length + 1 := by
  simpa using (PriorityQueue.enqueue_perm tie q v p).length_eq

theorem PriorityQueue.leafEntries_enqueue (tie : TieBreak) (q : PriorityQueue)
    (v : HuffmanNode) (p : Int) :
    (PriorityQueue.leafEntries (PriorityQueue.enqueue tie q v p)).Perm
      (v.leafEntries ++ PriorityQueue.leafEntries q) := by
  have h := (PriorityQueue.enqueue_perm tie q v p).flatMap_right
    (fun e : HuffmanNode × Int => e.1.leafEntries)
  simpa [PriorityQueue.leafEntries] using h

theorem enqueueLeaves_length (tie : TieBreak) (m : Map) (ks : List Int) (q : PriorityQueue) :
    (enqueueLeaves tie m ks q).length = q.length + ks.length := by
  induction ks generalizing q with
  | nil => rfl
  | cons k r ih =>
    simp only [enqueueLeaves, ih, PriorityQueue.enqueue_length, List.length_cons]
    omega

theorem enqueueLeaves_leafEntries (tie : TieBreak) (m : Map) (ks : List Int)
    (q : PriorityQueue) :
    (PriorityQueue.leafEntries (enqueueLeaves tie m ks q)).Perm
      (PriorityQueue.leafEntries q ++ ks.map (fun k => (k, m.get k))) := by
  induction ks generalizing q with
  | nil => simp [enqueueLeaves]
  | cons k r ih =>
    simp only [enqueueLeaves, List.map_cons]
    refine (ih _).trans ?_
    refine ((PriorityQueue.leafEntries_enqueue tie q _ _).append_right _).trans ?_
    simp only [HuffmanNode.leafEntries, List.singleton_append]
    exact (@List.perm_middle _ (k, m.get k) (PriorityQueue.leafEntries q)
      (r.map (fun k => (k, m.get k)))).symm

theorem mergeLoop_ok (tie : TieBreak) (fuel : Nat) :
    ∀ q : PriorityQueue, q.length ≤ fuel + 1 →
      ∃ q', mergeLoop tie fuel q = .ok q' ∧ q'.length = min q.length 1 ∧
        (PriorityQueue.leafEntries q').Perm (PriorityQueue.leafEntries q) := by
  induction fuel with
  | zero =>
    intro q hq
    refine ⟨q, ?_, ?_, List.Perm.refl _⟩
    · have : ¬ (q.length > 1) := by omega
      simp [mergeLoop, this]
    · omega
  | succ f ih =>
    intro q hq
    match q, hq with
    | [], _ => exact ⟨[], by simp [mergeLoop], rfl, List.Perm.refl _⟩
    | [e], _ => exact ⟨[e], by simp [mergeLoop], rfl, List.Perm.refl _⟩
    | (c1, p1) :: (c2, p2) :: r, hq =>
      have hlen : (PriorityQueue.enqueue tie r (.node NOT_A_CHAR (toInt32 (p1 + p2)) c1 c2)
          (toInt32 (p1 + p2))).length ≤ f + 1 := by
        rw [PriorityQueue.enqueue_length]
        simp only [List.length_cons] at hq
        omega
      obtain ⟨q', h1, h2, h3⟩ := ih _ hlen
      refine ⟨q', ?_, ?_, ?_⟩
      · simpa [mergeLoop, PriorityQueue.peekPriority, PriorityQueue.dequeue, bind,
          Except.bind] using h1
      · rw [h2, PriorityQueue.enqueue_length]
        simp only [List.length_cons]
        omega
      · refine h3.trans ((PriorityQueue.leafEntries_enqueue tie r _ _).trans ?_)
        simp [PriorityQueue.leafEntries, HuffmanNode.leafEntries]

theorem buildEncodingTreeHelper_nil (tie : TieBreak) :
    buildEncodingTreeHelper tie [] = .error .emptyQueue := by
  rfl

theorem buildEncodingTreeHelper_ok (tie : TieBreak) (m : Map) (hm : m ≠ []) :
    ∃ t, buildEncodingTreeHelper tie m = .ok t ∧
      t.leafEntries.Perm (m.keys.map (fun k => (k, m.get k))) := by
  have hlen : (enqueueLeaves tie m m.keys []).length = m.length := by
    simp [enqueueLeaves_length, Map.keys]
  obtain ⟨q', h1, h2, h3⟩ := mergeLoop_ok tie (enqueueLeaves tie m m.keys []).length
    (enqueueLeaves tie m m.keys []) (Nat.le_succ _)
  have hpos : 0 < m.length := List.length_pos.2 hm
  have hq' : q'.length = 1 := by
    rw [h2, hlen]
    omega
  match q', hq' with
  | [(t, p)], _ =>
    refine ⟨t, ?_, ?_⟩
    · simp [buildEncodingTreeHelper, h1, PriorityQueue.dequeue, bind, Except.bind, pure,
        Except.pure]
    · have h4 := h3.trans (enqueueLeaves_leafEntries tie m m.keys [])
      simpa [PriorityQueue.leafEntries] using h4

theorem leafEntries_fst (t : HuffmanNode) : t.leafEntries.map Prod.fst = t.leafSymbols := by
  induction t with
  | leaf s n => rfl
  | node s n z o ihz iho => simp [HuffmanNode.leafEntries, HuffmanNode.leafSymbols, ihz, iho]

theorem buildEncodingTreeHelper_leafSymbols (tie : TieBreak) (m : Map) (t : HuffmanNode)
    (h : buildEncodingTreeHelper tie m = .ok t) : t.leafSymbols.Perm m.keys := by
  have hm : m ≠ [] := by
    rintro rfl
    rw [buildEncodingTreeHelper_nil] at h
    cases h
  obtain ⟨t', h1, h2⟩ := buildEncodingTreeHelper_ok tie m hm
  rw [h] at h1
  cases h1
  have h3 := h2.map Prod.fst
  rw [leafEntries_fst] at h3
  simpa [Function.comp_def] using h3

/-! ## Composite facts -/

theorem charPopulationOf_eq (s : List Byte) :
    charPopulationOf s = (getCharPopulationLoop s s []).2.incr PSEUDO_EOF := rfl

theorem charPopulationOf_def (s : List Byte) :
    (getCharPopulation (IStream.ofList s) []).2 = charPopulationOf s := rfl

theorem getCharPopulation_ofList (s : List Byte) :
    getCharPopulation (IStream.ofList s) [] = (IStream.ofList s, charPopulationOf s) := by
  apply Prod.ext
  · show (getCharPopulationLoop s s []).1.rewind = IStream.ofList s
    rw [getCharPopulationLoop_fst]
    rfl
  · rfl

theorem wf_nil : Map.WF ([] : Map) := by
  simp [Map.WF, Map.keys]

theorem charPopulationOf_wf (s : List Byte) : (charPopulationOf s).WF := by
  rw [charPopulationOf_eq]
  apply Map.wf_incr
  apply getCharPopulationLoop_wf
  exact wf_nil

theorem charPopulationOf_keys (s : List Byte) (k : Int) :
    k ∈ (charPopulationOf s).keys ↔ (k = PSEUDO_EOF ∨ ∃ b ∈ s, (b.val : Int) = k) := by
  rw [charPopulationOf_eq, Map.keys_incr, getCharPopulationLoop_keys]
  simp [Map.keys]

theorem charPopulationOf_get_byte (s : List Byte) (b : Byte) (hb : s.count b ≤ 2147483647) :
    (charPopulationOf s).get (b.val : Int) = (s.count b : Int) := by
  have h0 : (0 : Int) ≤ Map.get [] (b.val : Int) := le_refl _
  have hmax : Map.get [] (b.val : Int) +
      ((s.map (fun c => (c.val : Int))).count (b.val : Int) : Int) ≤ 2147483647 := by
    rw [count_map_val]
    simp only [Map.get, zero_add]
    exact_mod_cast hb
  rw [charPopulationOf_eq, Map.get_incr _ _ _ (getCharPopulationLoop_wf s s [] wf_nil),
    if_neg (byte_ne_PSEUDO_EOF b), getCharPopulationLoop_get s s [] wf_nil _ h0 hmax,
    count_map_val]
  simp [Map.get]

theorem charPopulationOf_get_sentinel (s : List Byte) :
    (charPopulationOf s).get PSEUDO_EOF = 1 := by
  have hnot : PSEUDO_EOF ∉ (getCharPopulationLoop s s []).2.keys := by
    rw [getCharPopulationLoop_keys]
    rintro (h | ⟨b, _, hb⟩)
    · simp [Map.keys] at h
    · exact byte_ne_PSEUDO_EOF b hb
  rw [charPopulationOf_eq, Map.get_incr _ _ _ (getCharPopulationLoop_wf s s [] wf_nil),
    if_pos rfl, Map.get_eq_zero _ _ hnot]
  exact toInt32_one

theorem length_gt_one_of_mem {α : Type} (l : List α) (a b : α) (ha : a ∈ l) (hb : b ∈ l)
    (hab : a ≠ b) : 1 < l.length := by
  match l, ha, hb with
  | [x], ha, hb =>
    simp only [List.mem_singleton] at ha hb
    exact absurd (ha.trans hb.symm) hab
  | _ :: _ :: _, _, _ => simp

theorem charPopulationOf_size (s : List Byte) (hs : s ≠ []) : 1 < (charPopulationOf s).size := by
  obtain ⟨b, r, rfl⟩ := List.exists_cons_of_ne_nil hs
  have h1 : (b.val : Int) ∈ (charPopulationOf (b :: r)).keys :=
    (charPopulationOf_keys _ _).2 (Or.inr ⟨b, List.mem_cons_self _ _, rfl⟩)
  have h2 : PSEUDO_EOF ∈ (charPopulationOf (b :: r)).keys :=
    (charPopulationOf_keys _ _).2 (Or.inl rfl)
  have h3 := length_gt_one_of_mem _ _ _ h1 h2 (byte_ne_PSEUDO_EOF b)
  simpa [Map.size, Map.keys] using h3

theorem charPopulationOf_ne_nil (s : List Byte) : charPopulationOf s ≠ [] := by
  intro h
  have h2 : PSEUDO_EOF ∈ (charPopulationOf s).keys :=
    (charPopulationOf_keys _ _).2 (Or.inl rfl)
  rw [h] at h2
  simp [Map.keys] at h2

theorem compress_eq (tie : TieBreak) (s : List Byte) (t : HuffmanNode)
    (ht : buildEncodingTreeHelper tie (charPopulationOf s) = .ok t) :
    compress tie (IStream.ofList s) =
      .ok ⟨charPopulationOf s,
        if s = [] then []
        else concatCodes (codeTable t) s ++ (codeTable t).getD PSEUDO_EOF⟩ := by
  have h1 : getCharPopulation (IStream.ofList s) [] = (IStream.ofList s, charPopulationOf s) :=
    getCharPopulation_ofList s
  have h2 : buildEncodingTree tie (IStream.ofList s) = .ok (IStream.ofList s, t) := by
    simp [buildEncodingTree, h1, ht, bind, Except.bind, pure, Except.pure]
  have h3 := encodeData_eq (IStream.ofList s) t
  simp only [IStream.ofList] at h1 h2 h3
  simp [compress, IStream.ofList, h1, h2, h3, bind, Except.bind, pure, Except.pure]

theorem decodeDataSymbols_codes (t : HuffmanNode) (s : List Byte) (pad : List Bool)
    (fuel : Nat) (heof : PSEUDO_EOF ∈ t.leafSymbols)
    (hs : ∀ b ∈ s, (b.val : Int) ∈ t.leafSymbols) (hf : s.length ≤ fuel) :
    decodeDataSymbols fuel
        (concatCodes (codeTable t) s ++ (codeTable t).getD PSEUDO_EOF ++ pad) t =
      .ok (s.map (fun b => (b.val : Int)), pad) := by
  have htail : decodeDataHelper ((codeTable t).getD PSEUDO_EOF ++ pad) t = (PSEUDO_EOF, pad) :=
    decodeDataHelper_leafAt t _ _ _ (leafAt_getD_codeTable t _ heof)
  have h := decodeDataLoop_codes t (fun b => (codeTable t).getD (b.val : Int)) _ pad htail s
    fuel [] (fun b hb => leafAt_getD_codeTable t _ (hs b hb)) hf
  simp only [List.nil_append] at h
  simpa [decodeDataSymbols, concatCodes, List.append_assoc] using h

theorem decodeData_codes (t : HuffmanNode) (s : List Byte) (pad : List Bool)
    (fuel : Nat) (heof : PSEUDO_EOF ∈ t.leafSymbols)
    (hs : ∀ b ∈ s, (b.val : Int) ∈ t.leafSymbols) (hf : s.length ≤ fuel) :
    decodeData fuel
        (concatCodes (codeTable t) s ++ (codeTable t).getD PSEUDO_EOF ++ pad) t =
      .ok (s, pad) := by
  rw [decodeData, decodeDataSymbols_codes t s pad fuel heof hs hf]
  simp only [Except.map, map_toChar_val]

theorem decodeData_nil (t : HuffmanNode) (fuel : Nat) (heof : PSEUDO_EOF ∈ t.leafSymbols) :
    decodeData fuel [] t = .ok ([], []) := by
  cases t with
  | leaf c n =>
    simp only [HuffmanNode.leafSymbols, List.mem_singleton] at heof
    subst heof
    simp [decodeData, decodeDataSymbols, decodeDataHelper, decodeDataLoop_done, Except.map]
  | node c n z o =>
    simp [decodeData, decodeDataSymbols, decodeDataHelper_nil_node, decodeDataLoop_done,
      Except.map]

theorem compress_uncompress (tie : TieBreak) (s : List Byte) (pad : List Bool) (fuel : Nat)
    (hf : s.length ≤ fuel) :
    ∃ c, compress tie (IStream.ofList s) = .ok c ∧ c.header = charPopulationOf s ∧
      uncompress tie fuel c.header (c.payload ++ pad) = .ok s := by
  obtain ⟨t, ht, _⟩ := buildEncodingTreeHelper_ok tie _ (charPopulationOf_ne_nil s)
  refine ⟨_, compress_eq tie s t ht, rfl, ?_⟩
  by_cases hs : s = []
  · subst hs
    have : ¬ (1 < Map.size (charPopulationOf [])) := by decide
    simp [uncompress, uncompressTrace, this, Except.map]
  · have hsize := charPopulationOf_size s hs
    have hperm := buildEncodingTreeHelper_leafSymbols tie _ t ht
    have heof : PSEUDO_EOF ∈ t.leafSymbols :=
      hperm.mem_iff.2 ((charPopulationOf_keys s _).2 (Or.inl rfl))
    have hmem : ∀ b ∈ s, (b.val : Int) ∈ t.leafSymbols := fun b hb =>
      hperm.mem_iff.2 ((charPopulationOf_keys s _).2 (Or.inr ⟨b, hb, rfl⟩))
    have hd := decodeData_codes t s pad fuel heof hmem hf
    rw [List.append_assoc] at hd
    simp [uncompress, uncompressTrace, hsize, ht, hs, hd, Except.map, bind, Except.bind,
      pure, Except.pure]

theorem decodeDataLoop_no_sentinel (t : HuffmanNode) (fuel : Nat) :
    ∀ (c : Int) (input : List Bool) (w w' : List Int) (r : List Bool),
      decodeDataLoop t fuel c input w = .ok (w', r) → PSEUDO_EOF ∉ w → PSEUDO_EOF ∉ w' := by
  induction fuel with
  | zero =>
    intro c input w w' r h hw
    by_cases hc : c = PSEUDO_EOF
    · simp only [decodeDataLoop, hc, ne_eq, not_true_eq_false, if_false, Except.ok.injEq,
        Prod.mk.injEq] at h
      exact h.1 ▸ hw
    · simp [decodeDataLoop, hc] at h
  | succ f ih =>
    intro c input w w' r h hw
    by_cases hc : c = PSEUDO_EOF
    · simp only [decodeDataLoop, hc, ne_eq, not_true_eq_false, if_false, Except.ok.injEq,
        Prod.mk.injEq] at h
      exact h.1 ▸ hw
    · simp only [decodeDataLoop, hc, ne_eq, not_false_eq_true, if_true] at h
      refine ih _ _ _ _ _ h ?_
      simp only [List.mem_append, List.mem_singleton, not_or]
      exact ⟨hw, fun hh => hc hh.symm⟩

theorem Map.incr_append_new (m : Map) (k : Int) (hk : ∀ y ∈ m.keys, y < k) :
    m.incr k = m ++ [(k, 1)] := by
  induction m with
  | nil => rfl
  | cons e r ih =>
    obtain ⟨k', v⟩ := e
    have h1 : k' < k := hk k' (by simp [Map.keys])
    have h2 : ¬ (k < k') := not_lt.2 (le_of_lt h1)
    have h3 : ¬ (k = k') := ne_of_gt h1
    have ih' := ih (fun y hy => hk y (by
      simp only [Map.keys, List.map_cons, List.mem_cons]
      exact Or.inr hy))
    show Map.incr ((k', v) :: r) k = (k', v) :: (r ++ [(k, 1)])
    simp only [Map.incr, h2, h3, if_false]
    exact congrArg (fun l => (k', v) :: l) ih'

theorem Map.incr_append_last (m : Map) (k v : Int) (hk : ∀ y ∈ m.keys, y < k) :
    (m ++ [(k, v)]).incr k = m ++ [(k, toInt32 (v + 1))] := by
  induction m with
  | nil => simp [Map.incr]
  | cons e r ih =>
    obtain ⟨k', w⟩ := e
    have h1 : k' < k := hk k' (by simp [Map.keys])
    have h2 : ¬ (k < k') := not_lt.2 (le_of_lt h1)
    have h3 : ¬ (k = k') := ne_of_gt h1
    have ih' := ih (fun y hy => hk y (by
      simp only [Map.keys, List.map_cons, List.mem_cons]
      exact Or.inr hy))
    show Map.incr ((k', w) :: (r ++ [(k, v)])) k = (k', w) :: (r ++ [(k, toInt32 (v + 1))])
    simp only [Map.incr, h2, h3, if_false]
    exact congrArg (fun l => (k', w) :: l) ih'

theorem getCharPopulationLoop_replicate_last (all : List Byte) (m : Map) (b : Byte) (n : Nat)
    (v : Int) (hk : ∀ y ∈ m.keys, y < (b.val : Int)) (h0 : 0 ≤ v)
    (hmax : v + (n : Int) ≤ 2147483647) :
    (getCharPopulationLoop all (List.replicate n b) (m ++ [((b.val : Int), v)])).2 =
      m ++ [((b.val : Int), v + (n : Int))] := by
  induction n generalizing v with
  | zero => simp [getCharPopulationLoop]
  | succ n ih =>
    push_cast at hmax
    have hin : toInt32 (v + 1) = v + 1 := toInt32_of_inRange _ (by omega) (by omega)
    simp only [List.replicate_succ, getCharPopulationLoop]
    rw [Map.incr_append_last m _ v hk, hin, ih (v + 1) (by omega) (by omega)]
    push_cast
    rw [add_assoc, add_comm 1 (n : Int)]

theorem getCharPopulationLoop_replicate_new (all : List Byte) (m : Map) (b : Byte) (n : Nat)
    (hk : ∀ y ∈ m.keys, y < (b.val : Int)) (hn : 1 ≤ n) (hmax : (n : Int) ≤ 2147483647) :
    (getCharPopulationLoop all (List.replicate n b) m).2 = m ++ [((b.val : Int), (n : Int))] := by
  obtain ⟨k, rfl⟩ : ∃ k, n = k + 1 := ⟨n - 1, by omega⟩
  push_cast at hmax
  simp only [List.replicate_succ, getCharPopulationLoop]
  rw [Map.incr_append_new m _ hk,
    getCharPopulationLoop_replicate_last all m b k 1 hk (by omega) (by omega)]
  push_cast
  rw [add_comm]

theorem sentinel_gt_byte (b : Byte) : (b.val : Int) < PSEUDO_EOF := by
  have := b.isLt
  unfold PSEUDO_EOF
  omega

theorem charPopulationOf_replicate (b : Byte) (n : Nat) (hn : 1 ≤ n)
    (hmax : (n : Int) ≤ 2147483647) :
    charPopulationOf (List.replicate n b) = [((b.val : Int), (n : Int)), (PSEUDO_EOF, 1)] := by
  rw [charPopulationOf_eq,
    getCharPopulationLoop_replicate_new _ [] b n (by simp [Map.keys]) hn hmax]
  exact Map.incr_append_new [((b.val : Int), (n : Int))] PSEUDO_EOF (by
    intro y hy
    simp only [Map.keys, List.map_cons, List.map_nil, List.mem_singleton] at hy
    rw [hy]
    exact sentinel_gt_byte b)

theorem getCharPopulationLoop_replicate_overflow (all : List Byte) (b : Byte) (n : Nat)
    (hn : (n : Int) = 2147483648) :
    (getCharPopulationLoop all (List.replicate n b) []).2 = [((b.val : Int), -2147483648)] := by
  obtain ⟨k, rfl⟩ : ∃ k, n = k + 1 := ⟨n - 1, by omega⟩
  push_cast at hn
  have hk : (k : Int) = 2147483647 := by omega
  have h1 := getCharPopulationLoop_replicate_new all [] b k
    (by simp [Map.keys]) (by omega) (by omega)
  rw [List.replicate_succ', getCharPopulationLoop_append, h1]
  simp only [List.nil_append, getCharPopulationLoop, Map.incr, lt_self_iff_false, if_false,
    if_true, hk]
  have hovf : toInt32 (2147483647 + 1) = -2147483648 := by decide
  rw [hovf]

theorem charPopulationOf_replicate_overflow (b : Byte) (n : Nat) (hn : (n : Int) = 2147483648) :
    charPopulationOf (List.replicate n b) =
      [((b.val : Int), -2147483648), (PSEUDO_EOF, 1)] := by
  rw [charPopulationOf_eq, getCharPopulationLoop_replicate_overflow _ b n hn]
  exact Map.incr_append_new [((b.val : Int), -2147483648)] PSEUDO_EOF (by
    intro y hy
    simp only [Map.keys, List.map_cons, List.map_nil, List.mem_singleton] at hy
    rw [hy]
    exact sentinel_gt_byte b)

theorem getCharPopulationLoop_replicate_keys (all : List Byte) (b : Byte) (n : Nat) (v : Int) :
    ∃ v', (getCharPopulationLoop all (List.replicate n b) [((b.val : Int), v)]).2 =
      [((b.val : Int), v')] := by
  induction n generalizing v with
  | zero => exact ⟨v, rfl⟩
  | succ n ih =>
    obtain ⟨v', hv'⟩ := ih (toInt32 (v + 1))
    refine ⟨v', ?_⟩
    simpa [List.replicate_succ, getCharPopulationLoop, Map.incr] using hv'

theorem charPopulationOf_replicate_keys (b : Byte) (n : Nat) (hn : 1 ≤ n) :
    (charPopulationOf (List.replicate n b)).keys = [(b.val : Int), PSEUDO_EOF] := by
  obtain ⟨k, rfl⟩ : ∃ k, n = k + 1 := ⟨n - 1, by omega⟩
  obtain ⟨v', hv'⟩ := getCharPopulationLoop_replicate_keys (List.replicate (k + 1) b) b k 1
  have h1 : (getCharPopulationLoop (List.replicate (k + 1) b) (List.replicate (k + 1) b) []).2 =
      [((b.val : Int), v')] := by
    rw [← hv']
    simp [List.replicate_succ, getCharPopulationLoop, Map.incr]
  rw [charPopulationOf_eq, h1,
    Map.incr_append_new [((b.val : Int), v')] PSEUDO_EOF (by
      intro y hy
      simp only [Map.keys, List.map_cons, List.map_nil, List.mem_singleton] at hy
      rw [hy]
      exact sentinel_gt_byte b)]
  rfl

/-! ## The claims -/

/-- C1 (container round trip). For every byte sequence `S`, every tie-break rule
of the queue and every number `k` of zero padding bits: `compress` on a stream
over `S` writes a container, and `uncompress` on that header and on that
payload followed by the padding writes exactly `S`, whenever the fuel allows
one decoder iteration per byte of `S`. -/
theorem compress_uncompress_roundtrip (tie : TieBreak) (S : List Byte) (k fuel : Nat)
    (hfuel : S.length ≤ fuel) :
    ∃ c, compress tie (IStream.ofList S) = .ok c ∧
      uncompress tie fuel c.header (c.payload ++ List.replicate k false) = .ok S := by
  obtain ⟨c, h1, _, h3⟩ := compress_uncompress tie S (List.replicate k false) fuel hfuel
  exact ⟨c, h1, h3⟩

/-- C1 on the input 97 97 98 with a first-in first-out queue and two padding
bits. -/
theorem compress_uncompress_roundtrip_witness :
    ([97, 97, 98] : List Byte).length ≤ 3 ∧
      ∃ c, compress fifo (IStream.ofList [97, 97, 98]) = .ok c ∧
        uncompress fifo 3 c.header (c.payload ++ List.replicate 2 false) = .ok [97, 97, 98] :=
  ⟨by decide, compress_uncompress_roundtrip fifo [97, 97, 98] 2 3 (by decide)⟩

/-- C2 (decoder inverts encoder against the same tree). For every tree `T` whose
leaf symbols are pairwise distinct and include `PSEUDO_EOF`, and every byte
sequence `S` whose bytes are all leaf symbols of `T`: `encodeData` writes some
bits, and `decodeData` with `T` on exactly those bits writes exactly `S` and
leaves no bit unread, whenever the fuel allows one iteration per byte of `S`. -/
theorem decodeData_encodeData (T : HuffmanNode) (S : List Byte) (fuel : Nat)
    (_hdistinct : T.leafSymbols.Nodup) (heof : PSEUDO_EOF ∈ T.leafSymbols)
    (hS : ∀ b ∈ S, (b.val : Int) ∈ T.leafSymbols) (hfuel : S.length ≤ fuel) :
    ∃ bits, encodeData (IStream.ofList S) T = .ok bits ∧
      decodeData fuel bits T = .ok (S, []) := by
  refine ⟨_, encodeData_eq (IStream.ofList S) T, ?_⟩
  by_cases hs : S = []
  · subst hs
    simpa [IStream.ofList] using decodeData_nil T fuel heof
  · have h := decodeData_codes T S [] fuel heof hS hfuel
    simpa [IStream.ofList, hs] using h

set_option maxRecDepth 8192 in
/-- C2 on the two-leaf tree with leaves 97 and `PSEUDO_EOF` and the input
97 97. -/
theorem decodeData_encodeData_witness :
    (HuffmanNode.node 257 3 (.leaf 97 2) (.leaf 256 1)).leafSymbols.Nodup ∧
      PSEUDO_EOF ∈ (HuffmanNode.node 257 3 (.leaf 97 2) (.leaf 256 1)).leafSymbols ∧
      (∀ b ∈ ([97, 97] : List Byte),
        (b.val : Int) ∈ (HuffmanNode.node 257 3 (.leaf 97 2) (.leaf 256 1)).leafSymbols) ∧
      ([97, 97] : List Byte).length ≤ 2 ∧
      ∃ bits, encodeData (IStream.ofList [97, 97])
            (HuffmanNode.node 257 3 (.leaf 97 2) (.leaf 256 1)) = .ok bits ∧
        decodeData 2 bits (HuffmanNode.node 257 3 (.leaf 97 2) (.leaf 256 1)) =
          .ok ([97, 97], []) :=
  ⟨by decide, by decide, by decide, by decide,
    decodeData_encodeData (HuffmanNode.node 257 3 (.leaf 97 2) (.leaf 256 1)) [97, 97] 2
      (by decide) (by decide) (by decide) (by decide)⟩

/-- C3 (codes are free of prefixes). For every tree, in the table
`getDataCodeDict` yields from an empty table and an empty `dataCode`, the codes
of two distinct symbols of the table are such that neither is an initial
segment of the other. -/
theorem getDataCodeDict_codes_not_nested (T : HuffmanNode) (s1 s2 : Int) (c1 c2 : Code)
    (h1 : (getDataCodeDict T HashMap.empty []).1 s1 = some c1)
    (h2 : (getDataCodeDict T HashMap.empty []).1 s2 = some c2) (hne : s1 ≠ s2) :
    ¬ (c1 <+: c2) ∧ ¬ (c2 <+: c1) := by
  have l1 := codeTable_leafAt T s1 c1 h1
  have l2 := codeTable_leafAt T s2 c2 h2
  constructor
  · rintro ⟨r, rfl⟩
    exact hne (leafAt_append T c1 r s1 s2 l1 l2).2
  · rintro ⟨r, rfl⟩
    exact hne (leafAt_append T c2 r s2 s1 l2 l1).2.symm

/-- C3 on the two-leaf tree with leaves 97 and `PSEUDO_EOF`: the codes are 0
and 1. -/
theorem getDataCodeDict_codes_not_nested_witness :
    (getDataCodeDict (HuffmanNode.node 257 3 (.leaf 97 2) (.leaf 256 1)) HashMap.empty []).1 97
        = some [false] ∧
      (getDataCodeDict (HuffmanNode.node 257 3 (.leaf 97 2) (.leaf 256 1)) HashMap.empty []).1
        256 = some [true] ∧
      (97 : Int) ≠ 256 ∧ (¬ (([false] : Code) <+: [true]) ∧ ¬ (([true] : Code) <+: [false])) :=
  ⟨rfl, rfl, by decide,
    getDataCodeDict_codes_not_nested (HuffmanNode.node 257 3 (.leaf 97 2) (.leaf 256 1)) 97 256
      [false] [true] rfl rfl (by decide)⟩

/-- C4, as stated, fails: on the empty input and the two-leaf tree with leaves
97 and `PSEUDO_EOF`, `encodeData` writes no bit, not the code of the sentinel. -/
theorem encodeData_empty_input_no_sentinel :
    encodeData (IStream.ofList []) (HuffmanNode.node 257 2 (.leaf 97 1) (.leaf 256 1)) = .ok [] ∧
      concatCodes (codeTable (HuffmanNode.node 257 2 (.leaf 97 1) (.leaf 256 1))) [] ++
        (codeTable (HuffmanNode.node 257 2 (.leaf 97 1) (.leaf 256 1))).getD PSEUDO_EOF
          = [true] := by
  decide

/-- C4, amended (encoder output). For every tree `T` and every non-empty byte
sequence `S`, the bits `encodeData` writes are the concatenation, in stream
order, of the table code of each byte of `S`, followed by the code of
`PSEUDO_EOF` once; for the empty input `encodeData` writes no bit at all. -/
theorem encodeData_output (T : HuffmanNode) (S : List Byte) :
    encodeData (IStream.ofList S) T =
      .ok (if S = [] then []
        else concatCodes (codeTable T) S ++ (codeTable T).getD PSEUDO_EOF) :=
  encodeData_eq (IStream.ofList S) T

/-- C5, as stated, fails: on the input of 2^31 copies of the byte 97 the count
stored for 97 is `INT_MIN`, not the number of occurrences. -/
theorem getCharPopulation_count_overflow :
    (getCharPopulation (IStream.ofList (List.replicate 2147483648 (97 : Byte))) []).2.get 97 =
        -2147483648 ∧
      ((List.replicate 2147483648 (97 : Byte)).count 97 : Int) = 2147483648 := by
  constructor
  · rw [charPopulationOf_def, charPopulationOf_replicate_overflow 97 2147483648 rfl]
    rfl
  · rw [List.count_replicate_self]
    rfl

/-- C5, amended (frequency analysis). For every byte sequence `S`, the mapping
`getCharPopulation` yields from an empty mapping has as keys exactly
`PSEUDO_EOF` and the byte values occurring in `S`, each key once; every byte
value that occurs at most `INT_MAX` times maps to its number of occurrences in
`S`, and `PSEUDO_EOF` maps to 1; for the empty `S` the mapping holds the
sentinel alone. -/
theorem getCharPopulation_spec (S : List Byte) :
    (∀ k : Int, k ∈ (getCharPopulation (IStream.ofList S) []).2.keys ↔
        (k = PSEUDO_EOF ∨ ∃ b ∈ S, (b.val : Int) = k)) ∧
      (getCharPopulation (IStream.ofList S) []).2.keys.Nodup ∧
      (∀ b : Byte, S.count b ≤ 2147483647 →
        (getCharPopulation (IStream.ofList S) []).2.get (b.val : Int) = (S.count b : Int)) ∧
      (getCharPopulation (IStream.ofList S) []).2.get PSEUDO_EOF = 1 ∧
      (getCharPopulation (IStream.ofList []) []).2 = [(PSEUDO_EOF, 1)] := by
  refine ⟨charPopulationOf_keys S, ?_, charPopulationOf_get_byte S,
    charPopulationOf_get_sentinel S, rfl⟩
  exact (charPopulationOf_wf S).imp (fun h => ne_of_lt h)

/-- C6 (empty mapping is rejected). `buildEncodingTreeHelper` signals an error
exactly when the mapping is empty, and yields a tree exactly when it is not. -/
theorem buildEncodingTreeHelper_error_iff (tie : TieBreak) (m : Map) :
    ((∃ e, buildEncodingTreeHelper tie m = .error e) ↔ m = []) ∧
      ((∃ t, buildEncodingTreeHelper tie m = .ok t) ↔ m ≠ []) := by
  by_cases hm : m = []
  · subst hm
    simp [buildEncodingTreeHelper_nil]
  · obtain ⟨t, ht, _⟩ := buildEncodingTreeHelper_ok tie m hm
    simp [ht, hm]

/-- C7 (sentinel exclusivity). For every tree and every bit sequence on which
`decodeData` terminates, `PSEUDO_EOF` is not among the symbols handed to the
output stream, and the bytes written are exactly those symbols cast to `char`. -/
theorem decodeData_sentinel_not_written (T : HuffmanNode) (bits : List Bool) (fuel : Nat)
    (written : List Int) (unread : List Bool)
    (h : decodeDataSymbols fuel bits T = .ok (written, unread)) :
    PSEUDO_EOF ∉ written ∧ decodeData fuel bits T = .ok (written.map toChar, unread) := by
  refine ⟨?_, ?_⟩
  · unfold decodeDataSymbols at h
    exact decodeDataLoop_no_sentinel T fuel _ _ _ _ _ h (by simp)
  · rw [decodeData, h]
    rfl

/-- C7 on the two-leaf tree with leaves 97 and `PSEUDO_EOF` and the bits 0 0 1 1:
the symbols 97 and 97 are written, the sentinel stops the run, one bit stays. -/
theorem decodeData_sentinel_not_written_witness :
    decodeDataSymbols 2 [false, false, true, true]
        (HuffmanNode.node 257 3 (.leaf 97 2) (.leaf 256 1)) = .ok ([97, 97], [true]) ∧
      (PSEUDO_EOF ∉ ([97, 97] : List Int) ∧
        decodeData 2 [false, false, true, true]
          (HuffmanNode.node 257 3 (.leaf 97 2) (.leaf 256 1)) =
            .ok (([97, 97] : List Int).map toChar, [true])) :=
  ⟨by decide,
    decodeData_sentinel_not_written (HuffmanNode.node 257 3 (.leaf 97 2) (.leaf 256 1))
      [false, false, true, true] 2 [97, 97] [true] (by decide)⟩

/-- C8 (empty input). For the empty input `compress` writes the header
`PSEUDO_EOF -> 1` and no payload bit, and `uncompress` on that header writes
nothing, whatever bits follow the header. -/
theorem empty_input_container (tie : TieBreak) (fuel : Nat) (pad : List Bool) :
    compress tie (IStream.ofList []) = .ok ⟨[(PSEUDO_EOF, 1)], []⟩ ∧
      uncompress tie fuel [(PSEUDO_EOF, 1)] pad = .ok [] := by
  constructor
  · rfl
  · rfl

/-- C9, as stated, fails: on the one-entry header mapping `97 -> 5`, which does
not consist of the sentinel alone, `uncompress` skips decoding all the same. -/
theorem uncompress_skips_single_byte_header :
    ¬ (uncompressTrace fifo 1 [(97, 5)] [true] = .ok ([], .skipped) ↔
        Map.keys [(97, 5)] = [PSEUDO_EOF]) := by
  decide

/-- C9, amended (uncompress dispatch). For every header mapping, `uncompress`
skips decoding (writes nothing, builds no tree, reads no bit) exactly when the
mapping has at most one entry; for a mapping that contains the sentinel this is
exactly when the sentinel is its only key; for every mapping of two or more
entries it builds the tree with `buildEncodingTreeHelper` and runs `decodeData`
on it. -/
theorem uncompress_dispatch (tie : TieBreak) (fuel : Nat) (m : Map) (input : List Bool) :
    (uncompressTrace tie fuel m input = .ok ([], .skipped) ↔ m.size ≤ 1) ∧
      (PSEUDO_EOF ∈ m.keys → (m.size ≤ 1 ↔ m.keys = [PSEUDO_EOF])) ∧
      (1 < m.size →
        uncompressTrace tie fuel m input =
          match buildEncodingTreeHelper tie m with
          | .error e => .error e
          | .ok t =>
            match decodeData fuel input t with
            | .error e => .error e
            | .ok r => .ok (r.1, .decoded t r.2)) := by
  refine ⟨?_, ?_, ?_⟩
  · by_cases h : 1 < m.size
    · have h2 : ¬ (m.size ≤ 1) := by omega
      simp only [h2, iff_false]
      rcases hb : buildEncodingTreeHelper tie m with e | t
      · simp [uncompressTrace, h, hb, bind, Except.bind]
      · rcases hd : decodeData fuel input t with e | r
        · simp [uncompressTrace, h, hb, hd, bind, Except.bind]
        · simp [uncompressTrace, h, hb, hd, bind, Except.bind, pure, Except.pure]
    · have h2 : m.size ≤ 1 := by omega
      simp [uncompressTrace, h, h2]
  · intro hin
    match m, hin with
    | [(k, v)], hin =>
      simp only [Map.keys, List.map_cons, List.map_nil, List.mem_singleton] at hin
      simp [Map.size, Map.keys, hin]
    | _ :: _ :: _, _ => simp [Map.size, Map.keys]
  · intro h
    rcases hb : buildEncodingTreeHelper tie m with e | t
    · simp [uncompressTrace, h, hb, bind, Except.bind]
    · rcases hd : decodeData fuel input t with e | r
      · simp [uncompressTrace, h, hb, hd, bind, Except.bind]
      · simp [uncompressTrace, h, hb, hd, bind, Except.bind, pure, Except.pure]

/-- C10, as stated, fails: for 2^31 copies of the byte 97 the header that
`compress` writes maps 97 to `INT_MIN`, not to the number of copies. -/
theorem single_symbol_header_overflow :
    ∃ c, compress fifo (IStream.ofList (List.replicate 2147483648 (97 : Byte))) = .ok c ∧
      c.header = [(97, -2147483648), (PSEUDO_EOF, 1)] ∧
      c.header ≠ [(97, 2147483648), (PSEUDO_EOF, 1)] := by
  obtain ⟨c, h1, h2, _⟩ := compress_uncompress fifo (List.replicate 2147483648 (97 : Byte)) []
    (List.replicate 2147483648 (97 : Byte)).length (le_refl _)
  have hh := charPopulationOf_replicate_overflow 97 2147483648 rfl
  rw [← h2] at hh
  refine ⟨c, h1, ?_, ?_⟩
  · rw [hh]
    rfl
  · rw [hh]
    decide

/-- C10, amended (single-symbol input). For every byte `b` and every `n >= 1`,
`compress` on `n` copies of `b` writes a container whose header has exactly the
two keys `b` and `PSEUDO_EOF`, with `PSEUDO_EOF -> 1` and, whenever `n` is at
most `INT_MAX`, `b -> n`; `uncompress` on that container (its payload followed
by any number `k` of zero padding bits) writes the `n` copies of `b` again,
whenever the fuel allows `n` decoder iterations. -/
theorem single_symbol_roundtrip (tie : TieBreak) (b : Byte) (n k fuel : Nat) (hn : 1 ≤ n)
    (hfuel : n ≤ fuel) :
    ∃ c, compress tie (IStream.ofList (List.replicate n b)) = .ok c ∧
      c.header.keys = [(b.val : Int), PSEUDO_EOF] ∧
      c.header.get PSEUDO_EOF = 1 ∧
      (n ≤ 2147483647 → c.header = [((b.val : Int), (n : Int)), (PSEUDO_EOF, 1)]) ∧
      uncompress tie fuel c.header (c.payload ++ List.replicate k false) =
        .ok (List.replicate n b) := by
  obtain ⟨c, h1, h2, h3⟩ := compress_uncompress tie (List.replicate n b)
    (List.replicate k false) fuel (by simpa using hfuel)
  refine ⟨c, h1, ?_, ?_, ?_, h3⟩
  · rw [h2]
    exact charPopulationOf_replicate_keys b n hn
  · rw [h2]
    exact charPopulationOf_get_sentinel _
  · intro hmax
    exact h2.trans (charPopulationOf_replicate b n hn (by exact_mod_cast hmax))

/-- C10 at the spec's example: 1000 copies of the byte 97 (the letter a). -/
theorem single_symbol_roundtrip_witness :
    1 ≤ 1000 ∧ 1000 ≤ 1000 ∧
      ∃ c, compress fifo (IStream.ofList (List.replicate 1000 (97 : Byte))) = .ok c ∧
        c.header = [((((97 : Byte)).val : Int), ((1000 : Nat) : Int)), (PSEUDO_EOF, 1)] ∧
        uncompress fifo 1000 c.header (c.payload ++ List.replicate 0 false) =
          .ok (List.replicate 1000 (97 : Byte)) := by
  obtain ⟨c, h1, _, _, h4, h5⟩ :=
    single_symbol_roundtrip fifo 97 1000 0 1000 (by decide) (by decide)
  exact ⟨by decide, by decide, c, h1, h4 (by decide), h5⟩

/-! ## Truncated payloads and termination of the decoder: auxiliary facts -/

theorem decodeDataHelper_subtree (t : HuffmanNode) (q rest : List Bool) (u : HuffmanNode)
    (h : t.subtree q = some u) : decodeDataHelper (q ++ rest) t = decodeDataHelper rest u := by
  induction q generalizing t with
  | nil =>
    cases t <;> simp only [HuffmanNode.subtree, Option.some.injEq] at h <;> subst h <;> rfl
  | cons b q ih =>
    cases t with
    | leaf c n => simp [HuffmanNode.subtree] at h
    | node c n z o =>
      cases b with
      | false =>
        simp only [HuffmanNode.subtree] at h
        simp [decodeDataHelper, readBit, ih z h]
      | true =>
        simp only [HuffmanNode.subtree] at h
        simp [decodeDataHelper, readBit, ih o h]

theorem decodeDataHelper_truncated (t : HuffmanNode) (q : List Bool)
    (h : (t.subtree q).map HuffmanNode.isLeaf = some false) :
    decodeDataHelper q t = (PSEUDO_EOF, []) := by
  cases hu : t.subtree q with
  | none => simp [hu] at h
  | some u =>
    have h1 := decodeDataHelper_subtree t q [] u hu
    rw [List.append_nil] at h1
    rw [h1]
    cases u with
    | leaf c n => simp [hu, HuffmanNode.isLeaf] at h
    | node c n z o => exact decodeDataHelper_nil_node c n z o

theorem decodeDataLoop_paths (t : HuffmanNode) (tail rest : List Bool)
    (htail : decodeDataHelper tail t = (PSEUDO_EOF, rest)) (l : List (Int × Code)) :
    ∀ (fuel : Nat) (written : List Int),
      (∀ e ∈ l, t.leafAt e.2 = some e.1 ∧ e.1 ≠ PSEUDO_EOF) → l.length ≤ fuel →
      decodeDataLoop t fuel (decodeDataHelper ((l.map Prod.snd).flatten ++ tail) t).1
          (decodeDataHelper ((l.map Prod.snd).flatten ++ tail) t).2 written =
        .ok (written ++ l.map Prod.fst, rest) := by
  induction l with
  | nil =>
    intro fuel written _ _
    simp [htail, decodeDataLoop_done]
  | cons e r ih =>
    intro fuel written hl hf
    obtain ⟨f, rfl⟩ : ∃ f, fuel = f + 1 := ⟨fuel - 1, by simp at hf; omega⟩
    obtain ⟨he, hne⟩ := hl e (List.mem_cons_self _ _)
    have hstep : decodeDataHelper (((e :: r).map Prod.snd).flatten ++ tail) t =
        (e.1, (r.map Prod.snd).flatten ++ tail) := by
      simp only [List.map_cons, List.flatten_cons, List.append_assoc]
      exact decodeDataHelper_leafAt t _ _ _ he
    rw [hstep, decodeDataLoop]
    simp only [hne, ne_eq, not_false_eq_true, if_true]
    rw [ih f _ (fun e' he' => hl e' (List.mem_cons_of_mem _ he')) (by simp at hf; omega)]
    simp

theorem decodeDataHelper_length (t : HuffmanNode) (bits : List Bool) :
    (decodeDataHelper bits t).2.length ≤ bits.length := by
  induction t generalizing bits with
  | leaf c n => simp [decodeDataHelper]
  | node c n z o ihz iho =>
    cases bits with
    | nil => simp [decodeDataHelper, readBit]
    | cons b r =>
      cases b with
      | false =>
        have := ihz r
        simp only [decodeDataHelper, readBit, List.length_cons]
        simp only [Bool.false_eq_true, if_false]
        simp
        omega
      | true =>
        have := iho r
        simp only [decodeDataHelper, readBit, List.length_cons]
        simp
        omega

theorem decodeDataHelper_node_progress (c n : Int) (z o : HuffmanNode) (bits : List Bool)
    (h : (decodeDataHelper bits (.node c n z o)).1 ≠ PSEUDO_EOF) :
    (decodeDataHelper bits (.node c n z o)).2.length + 1 ≤ bits.length := by
  cases bits with
  | nil => simp [decodeDataHelper, readBit] at h
  | cons b r =>
    cases b with
    | false =>
      have := decodeDataHelper_length z r
      simp [decodeDataHelper, readBit]
      omega
    | true =>
      have := decodeDataHelper_length o r
      simp [decodeDataHelper, readBit]
      omega

theorem decodeDataLoop_node_ok (c n : Int) (z o : HuffmanNode) (fuel : Nat) :
    ∀ (cur : Int) (input : List Bool) (written : List Int),
      (cur ≠ PSEUDO_EOF → input.length + 1 ≤ fuel) →
      ∃ r, decodeDataLoop (.node c n z o) fuel cur input written = .ok r := by
  induction fuel with
  | zero =>
    intro cur input written h
    have hc : cur = PSEUDO_EOF := by
      by_contra hne
      have := h hne
      omega
    exact ⟨_, by rw [hc, decodeDataLoop_done]⟩
  | succ f ih =>
    intro cur input written h
    by_cases hc : cur = PSEUDO_EOF
    · exact ⟨_, by rw [hc, decodeDataLoop_done]⟩
    · have hlen := h hc
      rw [decodeDataLoop]
      simp only [hc, ne_eq, not_false_eq_true, if_true]
      apply ih
      intro hne
      have := decodeDataHelper_node_progress c n z o input hne
      omega

theorem decodeDataSymbols_node_ok (c n : Int) (z o : HuffmanNode) (bits : List Bool)
    (fuel : Nat) (hf : bits.length ≤ fuel) :
    ∃ r, decodeDataSymbols fuel bits (.node c n z o) = .ok r := by
  have h := decodeDataLoop_node_ok c n z o fuel (decodeDataHelper bits (.node c n z o)).1
    (decodeDataHelper bits (.node c n z o)).2 [] (by
      intro hne
      have := decodeDataHelper_node_progress c n z o bits hne
      omega)
  exact h

theorem decodeDataLoop_stuck (c n : Int) (hc : c ≠ PSEUDO_EOF) (fuel : Nat) :
    ∀ (input : List Bool) (written : List Int),
      decodeDataLoop (.leaf c n) fuel c input written = .error .outOfFuel := by
  induction fuel with
  | zero =>
    intro input written
    simp [decodeDataLoop, hc]
  | succ f ih =>
    intro input written
    rw [decodeDataLoop]
    simp only [hc, ne_eq, not_false_eq_true, if_true, decodeDataHelper]
    exact ih _ _

theorem decodeDataLoop_error (t : HuffmanNode) (fuel : Nat) :
    ∀ (cur : Int) (input : List Bool) (written : List Int) (e : Failure),
      decodeDataLoop t fuel cur input written = .error e → e = .outOfFuel := by
  induction fuel with
  | zero =>
    intro cur input written e h
    by_cases hc : cur = PSEUDO_EOF
    · simp [decodeDataLoop, hc] at h
    · simp only [decodeDataLoop, hc, ne_eq, not_false_eq_true, if_true,
        Except.error.injEq] at h
      exact h.symm
  | succ f ih =>
    intro cur input written e h
    by_cases hc : cur = PSEUDO_EOF
    · simp [decodeDataLoop, hc] at h
    · rw [decodeDataLoop] at h
      simp only [hc, ne_eq, not_false_eq_true, if_true] at h
      exact ih _ _ _ _ h

theorem decodeData_of_symbols (fuel : Nat) (bits : List Bool) (t : HuffmanNode)
    (w : List Int) (r : List Bool) (h : decodeDataSymbols fuel bits t = .ok (w, r)) :
    decodeData fuel bits t = .ok (w.map toChar, r) := by
  rw [decodeData, h]
  rfl

theorem decodeData_ok_of_root (T : HuffmanNode) (bits : List Bool) (fuel : Nat)
    (hroot : ∀ c n, T = .leaf c n → c = PSEUDO_EOF) (hf : bits.length ≤ fuel) :
    ∃ out unread, decodeData fuel bits T = .ok (out, unread) := by
  cases T with
  | leaf c n =>
    have hc := hroot c n rfl
    subst hc
    refine ⟨[], bits, ?_⟩
    simp [decodeData, decodeDataSymbols, decodeDataHelper, decodeDataLoop_done, Except.map]
  | node c n z o =>
    obtain ⟨r, hr⟩ := decodeDataSymbols_node_ok c n z o bits fuel hf
    exact ⟨r.1.map toChar, r.2, decodeData_of_symbols fuel bits _ r.1 r.2 hr⟩

theorem decodeData_stuck (c n : Int) (hc : c ≠ PSEUDO_EOF) (bits : List Bool) (fuel : Nat) :
    decodeData fuel bits (.leaf c n) = .error .outOfFuel := by
  have h : decodeDataSymbols fuel bits (.leaf c n) = .error .outOfFuel :=
    decodeDataLoop_stuck c n hc fuel bits []
  rw [decodeData, h]
  rfl

theorem decodeData_error (T : HuffmanNode) (bits : List Bool) (fuel : Nat) (e : Failure)
    (h : decodeData fuel bits T = .error e) : e = .outOfFuel := by
  rcases hs : decodeDataSymbols fuel bits T with e' | r
  · have he' : e' = .outOfFuel := decodeDataLoop_error T fuel _ _ _ e' hs
    rw [decodeData, hs] at h
    simp only [Except.map, Except.error.injEq] at h
    rw [← h, he']
  · rw [decodeData, hs] at h
    simp [Except.map] at h

/-- C12 (a truncated payload acts as the sentinel). For every tree with an
internal root, every list of leaves `s1..sk` other than the sentinel given with
their paths, and every path `q` that ends at an internal node: on the
concatenated paths followed by `q`, `decodeData` returns normally, the symbols
handed to the output are exactly `s1..sk`, and no bit is left unread, whenever
the fuel allows `k` iterations. -/
theorem decodeData_truncated_payload (T : HuffmanNode) (l : List (Int × Code)) (q : Code)
    (fuel : Nat) (_hroot : T.isLeaf = false)
    (hl : ∀ e ∈ l, T.leafAt e.2 = some e.1 ∧ e.1 ≠ PSEUDO_EOF)
    (hq : (T.subtree q).map HuffmanNode.isLeaf = some false) (hfuel : l.length ≤ fuel) :
    decodeDataSymbols fuel ((l.map Prod.snd).flatten ++ q) T = .ok (l.map Prod.fst, []) ∧
      decodeData fuel ((l.map Prod.snd).flatten ++ q) T =
        .ok ((l.map Prod.fst).map toChar, []) := by
  have h := decodeDataLoop_paths T q [] (decodeDataHelper_truncated T q hq) l fuel [] hl hfuel
  simp only [List.nil_append] at h
  have hs : decodeDataSymbols fuel ((l.map Prod.snd).flatten ++ q) T =
      .ok (l.map Prod.fst, []) := h
  exact ⟨hs, decodeData_of_symbols _ _ _ _ _ hs⟩

set_option maxRecDepth 8192 in
/-- C12 on the tree with leaves 97 (path 0), 98 (path 1 0) and `PSEUDO_EOF`
(path 1 1): the bits 0 1 0 1 end inside the tree after the codes of 97 and 98. -/
theorem decodeData_truncated_payload_witness :
    (HuffmanNode.node 257 4 (.leaf 97 2) (.node 257 2 (.leaf 98 1) (.leaf 256 1))).isLeaf
        = false ∧
      (∀ e ∈ ([(97, [false]), (98, [true, false])] : List (Int × Code)),
        (HuffmanNode.node 257 4 (.leaf 97 2) (.node 257 2 (.leaf 98 1) (.leaf 256 1))).leafAt
            e.2 = some e.1 ∧ e.1 ≠ PSEUDO_EOF) ∧
      ((HuffmanNode.node 257 4 (.leaf 97 2) (.node 257 2 (.leaf 98 1) (.leaf 256 1))).subtree
          [true]).map HuffmanNode.isLeaf = some false ∧
      ([(97, [false]), (98, [true, false])] : List (Int × Code)).length ≤ 2 ∧
      (decodeDataSymbols 2
          ((([(97, [false]), (98, [true, false])] : List (Int × Code)).map Prod.snd).flatten
            ++ [true])
          (HuffmanNode.node 257 4 (.leaf 97 2) (.node 257 2 (.leaf 98 1) (.leaf 256 1))) =
          .ok (([(97, [false]), (98, [true, false])] : List (Int × Code)).map Prod.fst, []) ∧
        decodeData 2
          ((([(97, [false]), (98, [true, false])] : List (Int × Code)).map Prod.snd).flatten
            ++ [true])
          (HuffmanNode.node 257 4 (.leaf 97 2) (.node 257 2 (.leaf 98 1) (.leaf 256 1))) =
          .ok ((([(97, [false]), (98, [true, false])] : List (Int × Code)).map Prod.fst).map
            toChar, [])) :=
  ⟨by decide, by decide, by decide, by decide,
    decodeData_truncated_payload
      (HuffmanNode.node 257 4 (.leaf 97 2) (.node 257 2 (.leaf 98 1) (.leaf 256 1)))
      [(97, [false]), (98, [true, false])] [true] 2 (by decide) (by decide) (by decide)
      (by decide)⟩

/-- C13, as stated, fails: the code has one decoder and no strict mode; on the
tree with leaves 97 (path 0), 98 (path 1 0) and `PSEUDO_EOF` (path 1 1) and the
payload 0 1, which is cut inside the second code, `decodeData` returns normally
with the output 97 and signals no error. -/
theorem decodeData_truncated_returns_normally :
    decodeData 1 [false, true]
        (HuffmanNode.node 257 4 (.leaf 97 2) (.node 257 2 (.leaf 98 1) (.leaf 256 1))) =
        .ok ([97], []) ∧
      ¬ ∃ e, decodeData 1 [false, true]
        (HuffmanNode.node 257 4 (.leaf 97 2) (.node 257 2 (.leaf 98 1) (.leaf 256 1))) =
        .error e := by
  have h : decodeData 1 [false, true]
      (HuffmanNode.node 257 4 (.leaf 97 2) (.node 257 2 (.leaf 98 1) (.leaf 256 1))) =
      .ok ([97], []) := by decide
  refine ⟨h, ?_⟩
  rintro ⟨e, he⟩
  rw [h] at he
  cases he

/-- C13, amended (no strict mode). For every tree, every list of leaves `s1..sk`
other than the sentinel given with their paths, and every path `q` that ends at
an internal node (a payload cut inside a code): `decodeDataHelper` on `q`
returns `PSEUDO_EOF`, and `decodeData` on the concatenated paths followed by
`q` returns normally, having written exactly `s1..sk` (each cast to `char`) and
left no bit unread, whenever the fuel allows `k` iterations; on that tree
`decodeData` never signals a decoding error (its only failure is a run that
does not end) and returns normally on every bit sequence. -/
theorem decodeData_signals_no_error (T : HuffmanNode) (l : List (Int × Code)) (q : Code)
    (fuel : Nat) (hl : ∀ e ∈ l, T.leafAt e.2 = some e.1 ∧ e.1 ≠ PSEUDO_EOF)
    (hq : (T.subtree q).map HuffmanNode.isLeaf = some false) (hfuel : l.length ≤ fuel) :
    decodeDataHelper q T = (PSEUDO_EOF, []) ∧
      decodeDataSymbols fuel ((l.map Prod.snd).flatten ++ q) T = .ok (l.map Prod.fst, []) ∧
      decodeData fuel ((l.map Prod.snd).flatten ++ q) T =
        .ok ((l.map Prod.fst).map toChar, []) ∧
      (∀ (bits : List Bool) (fuel' : Nat) (e : Failure),
        decodeData fuel' bits T = .error e → e = Failure.outOfFuel) ∧
      (∀ (bits : List Bool) (fuel' : Nat), bits.length ≤ fuel' →
        ∃ out unread, decodeData fuel' bits T = .ok (out, unread)) := by
  have hroot : ∀ c n, T = .leaf c n → c = PSEUDO_EOF := by
    intro c n hT
    subst hT
    cases q with
    | nil => simp [HuffmanNode.subtree, HuffmanNode.isLeaf] at hq
    | cons x q => simp [HuffmanNode.subtree] at hq
  have h := decodeDataLoop_paths T q [] (decodeDataHelper_truncated T q hq) l fuel [] hl hfuel
  simp only [List.nil_append] at h
  have hs : decodeDataSymbols fuel ((l.map Prod.snd).flatten ++ q) T =
      .ok (l.map Prod.fst, []) := h
  exact ⟨decodeDataHelper_truncated T q hq, hs, decodeData_of_symbols _ _ _ _ _ hs,
    fun bits fuel' e he => decodeData_error T bits fuel' e he,
    fun bits fuel' hf => decodeData_ok_of_root T bits fuel' hroot hf⟩

set_option maxRecDepth 8192 in
/-- C13 on the tree with leaves 97 (path 0), 98 (path 1 0) and `PSEUDO_EOF`
(path 1 1) and the payload 0 1, which is cut inside the second code: the
output is 97, nothing is unread, and no error is signalled. -/
theorem decodeData_signals_no_error_witness :
    (∀ e ∈ ([(97, [false])] : List (Int × Code)),
        (HuffmanNode.node 257 4 (.leaf 97 2) (.node 257 2 (.leaf 98 1) (.leaf 256 1))).leafAt
            e.2 = some e.1 ∧ e.1 ≠ PSEUDO_EOF) ∧
      ((HuffmanNode.node 257 4 (.leaf 97 2) (.node 257 2 (.leaf 98 1) (.leaf 256 1))).subtree
          [true]).map HuffmanNode.isLeaf = some false ∧
      ([(97, [false])] : List (Int × Code)).length ≤ 1 ∧
      decodeDataHelper [true]
          (HuffmanNode.node 257 4 (.leaf 97 2) (.node 257 2 (.leaf 98 1) (.leaf 256 1))) =
          (PSEUDO_EOF, []) ∧
      decodeData 1 [false, true]
          (HuffmanNode.node 257 4 (.leaf 97 2) (.node 257 2 (.leaf 98 1) (.leaf 256 1))) =
          .ok ([97], []) := by
  obtain ⟨h1, _, h3, _, _⟩ := decodeData_signals_no_error
    (HuffmanNode.node 257 4 (.leaf 97 2) (.node 257 2 (.leaf 98 1) (.leaf 256 1)))
    [(97, [false])] [true] 1 (by decide) (by decide) (by decide)
  exact ⟨by decide, by decide, by decide, h1, h3⟩

/-- C19 (termination of the decoder). `decodeData` terminates on every bit
sequence exactly when the root is not a leaf with a symbol other than
`PSEUDO_EOF`; in that case fuel for as many iterations as there are bits (one
call of `decodeDataHelper` more than that) is enough; when the root is a leaf
with another symbol, every call of `decodeDataHelper` yields that symbol and
consumes no bit, and no amount of fuel ends the run. -/
theorem decodeData_terminates_iff (T : HuffmanNode) :
    ((∀ bits : List Bool, ∃ fuel out unread, decodeData fuel bits T = .ok (out, unread)) ↔
        (∀ c n, T = .leaf c n → c = PSEUDO_EOF)) ∧
      ((∀ c n, T = .leaf c n → c = PSEUDO_EOF) →
        ∀ (bits : List Bool) (fuel : Nat), bits.length ≤ fuel →
          ∃ out unread, decodeData fuel bits T = .ok (out, unread)) ∧
      (∀ c n, T = .leaf c n → c ≠ PSEUDO_EOF →
        ∀ (bits : List Bool) (fuel : Nat),
          decodeDataHelper bits T = (c, bits) ∧
            decodeData fuel bits T = .error .outOfFuel) := by
  refine ⟨⟨?_, ?_⟩, ?_, ?_⟩
  · intro h c n hT
    by_contra hc
    obtain ⟨fuel, out, unread, hok⟩ := h []
    rw [hT, decodeData_stuck c n hc [] fuel] at hok
    cases hok
  · intro hroot bits
    exact ⟨bits.length, decodeData_ok_of_root T bits bits.length hroot (le_refl _)⟩
  · intro hroot bits fuel hf
    exact decodeData_ok_of_root T bits fuel hroot hf
  · intro c n hT hc bits fuel
    subst hT
    exact ⟨rfl, decodeData_stuck c n hc bits fuel⟩

/-! ## Agreement of the two trees, trailing bits, missing symbols, paths: auxiliary facts -/

theorem decodeData_sentinel_leaf (n : Int) (bits : List Bool) (fuel : Nat) :
    decodeData fuel bits (.leaf PSEUDO_EOF n) = .ok ([], bits) := by
  simp [decodeData, decodeDataSymbols, decodeDataHelper, decodeDataLoop_done, Except.map]

theorem buildEncodingTree_eq (tie : TieBreak) (s : List Byte) (t : HuffmanNode)
    (ht : buildEncodingTreeHelper tie (charPopulationOf s) = .ok t) :
    buildEncodingTree tie (IStream.ofList s) = .ok (IStream.ofList s, t) := by
  have h1 : getCharPopulation (IStream.ofList s) [] = (IStream.ofList s, charPopulationOf s) :=
    getCharPopulation_ofList s
  simp [buildEncodingTree, h1, ht, bind, Except.bind, pure, Except.pure]

theorem uncompressTrace_tree (tie : TieBreak) (fuel : Nat) (m : Map) (input : List Bool)
    (t t' : HuffmanNode) (out : List Byte) (unread : List Bool)
    (ht : buildEncodingTreeHelper tie m = .ok t)
    (h : uncompressTrace tie fuel m input = .ok (out, .decoded t' unread)) : t' = t := by
  by_cases hs : 1 < m.size
  · rcases hd : decodeData fuel input t with e | r
    · simp [uncompressTrace, hs, ht, hd, bind, Except.bind] at h
    · simp only [uncompressTrace, hs, ht, hd, bind, Except.bind, pure, Except.pure,
        gt_iff_lt, if_true, Except.ok.injEq, Prod.mk.injEq, Trace.decoded.injEq] at h
      exact h.2.1.symm
  · simp [uncompressTrace, hs] at h

theorem codeTable_getD_missing (t : HuffmanNode) (s : Int) (h : s ∉ t.leafSymbols) :
    (codeTable t).getD s = [] := by
  simp [HashMap.getD, codeTable_none t s h]

theorem concatCodes_filter (d : HashMap) (p : Byte → Bool) (s : List Byte)
    (h : ∀ b, p b = false → d.getD (b.val : Int) = []) :
    concatCodes d (s.filter p) = concatCodes d s := by
  induction s with
  | nil => rfl
  | cons b r ih =>
    unfold concatCodes at ih ⊢
    cases hp : p b with
    | true => simp [List.filter_cons, hp, ih]
    | false => simp [List.filter_cons, hp, ih, h b hp]

theorem mem_leafCodes_of_leafAt (t : HuffmanNode) (s : Int) (p : Code)
    (h : t.leafAt p = some s) : (s, p) ∈ t.leafCodes := by
  induction t generalizing p with
  | leaf c n =>
    cases p with
    | nil =>
      simp only [HuffmanNode.leafAt, Option.some.injEq] at h
      simp [HuffmanNode.leafCodes, h]
    | cons x p => simp [HuffmanNode.leafAt] at h
  | node c n z o ihz iho =>
    cases p with
    | nil => simp [HuffmanNode.leafAt] at h
    | cons x p =>
      cases x with
      | false =>
        simp only [HuffmanNode.leafAt] at h
        simp only [HuffmanNode.leafCodes, List.mem_append, List.mem_map]
        exact Or.inl ⟨(s, p), ihz p h, rfl⟩
      | true =>
        simp only [HuffmanNode.leafAt] at h
        simp only [HuffmanNode.leafCodes, List.mem_append, List.mem_map]
        exact Or.inr ⟨(s, p), iho p h, rfl⟩

theorem putAll_not_mem (l : List (Int × Code)) (d : HashMap) (c : Code) (s : Int)
    (h : s ∉ l.map Prod.fst) : putAll d c l s = d s := by
  induction l generalizing d with
  | nil => rfl
  | cons e r ih =>
    simp only [List.map_cons, List.mem_cons, not_or] at h
    simp only [putAll, List.foldl_cons]
    have := ih (d.put e.1 (c ++ e.2)) h.2
    simp only [putAll] at this
    rw [this]
    simp [HashMap.put, h.1]

theorem putAll_mem (l : List (Int × Code)) (d : HashMap) (c : Code) (s : Int) (p : Code)
    (hnd : (l.map Prod.fst).Nodup) (h : (s, p) ∈ l) : putAll d c l s = some (c ++ p) := by
  induction l generalizing d with
  | nil => simp at h
  | cons e r ih =>
    simp only [List.map_cons, List.nodup_cons] at hnd
    rcases List.mem_cons.1 h with he | hr
    · subst he
      have := putAll_not_mem r (d.put s (c ++ p)) c s hnd.1
      simp only [putAll, List.foldl_cons] at this ⊢
      rw [this]
      simp [HashMap.put]
    · have := ih (d.put e.1 (c ++ e.2)) hnd.2 hr
      simpa only [putAll, List.foldl_cons] using this

theorem codeTable_of_leafAt (t : HuffmanNode) (hnd : t.leafSymbols.Nodup) (s : Int) (p : Code)
    (h : t.leafAt p = some s) : codeTable t s = some p := by
  rw [codeTable_eq]
  have := putAll_mem t.leafCodes HashMap.empty [] s p (by rw [leafCodes_fst]; exact hnd)
    (mem_leafCodes_of_leafAt t s p h)
  simpa using this

/-- C14 (the encoder and the decoder use the same tree). For every input `S`
and every tie-break rule: the first scan of `compress` consumes the stream to
its end and `getCharPopulation` leaves it rewound to its first byte;
`buildEncodingTree` then builds a tree `t` from a second scan and leaves the
stream at its first byte again; `encodeData` reads `S` from there against `t`;
`buildEncodingTreeHelper` on the header mapping that `compress` wrote yields the
same `t`, and every tree `uncompress` decodes that header with is `t`. -/
theorem compress_uncompress_same_tree (tie : TieBreak) (S : List Byte) :
    ∃ (t : HuffmanNode) (input : IStream) (bits : List Bool),
      (getCharPopulationLoop S S []).1.rest = [] ∧
      (getCharPopulation (IStream.ofList S) []).1.rest = S ∧
      buildEncodingTree tie (getCharPopulation (IStream.ofList S) []).1 = .ok (input, t) ∧
      input.rest = S ∧
      encodeData input t = .ok bits ∧
      compress tie (IStream.ofList S) =
        .ok ⟨(getCharPopulation (IStream.ofList S) []).2, bits⟩ ∧
      buildEncodingTreeHelper tie (getCharPopulation (IStream.ofList S) []).2 = .ok t ∧
      (∀ (fuel : Nat) (X : List Bool) (out : List Byte) (t' : HuffmanNode)
          (unread : List Bool),
        uncompressTrace tie fuel (getCharPopulation (IStream.ofList S) []).2 X =
            .ok (out, .decoded t' unread) → t' = t) := by
  obtain ⟨t, ht, _⟩ := buildEncodingTreeHelper_ok tie _ (charPopulationOf_ne_nil S)
  have hscan : getCharPopulation (IStream.ofList S) [] = (IStream.ofList S, charPopulationOf S) :=
    getCharPopulation_ofList S
  refine ⟨t, IStream.ofList S, _, ?_, ?_, ?_, rfl,
    encodeData_eq (IStream.ofList S) t, ?_, ?_, ?_⟩
  · rw [getCharPopulationLoop_fst]
  · rw [hscan]
    rfl
  · rw [hscan]
    exact buildEncodingTree_eq tie S t ht
  · rw [hscan]
    exact compress_eq tie S t ht
  · rw [hscan]
    exact ht
  · intro fuel X out t' unread h
    rw [hscan] at h
    exact uncompressTrace_tree tie fuel _ X t t' out unread ht h

/-- C15 (the code table holds the paths from the root to the leaves). For every
tree with pairwise distinct leaf symbols, `getDataCodeDict` on an empty table
and an empty `dataCode` returns with `dataCode` empty again and with a table in
which a symbol has the code `p` exactly when following `p` from the root (0 to
the zero-branch, 1 to the one-branch) ends at the leaf with that symbol; the
keys of the table are exactly the leaf symbols; a tree that is a single leaf
gives that leaf the empty code. -/
theorem getDataCodeDict_paths (T : HuffmanNode) (hdistinct : T.leafSymbols.Nodup) :
    (getDataCodeDict T HashMap.empty []).2 = [] ∧
      (∀ (s : Int) (p : Code),
        (getDataCodeDict T HashMap.empty []).1 s = some p ↔ T.leafAt p = some s) ∧
      (∀ s : Int,
        HashMap.containsKey (getDataCodeDict T HashMap.empty []).1 s = true ↔
          s ∈ T.leafSymbols) ∧
      (∀ c n : Int, (getDataCodeDict (.leaf c n) HashMap.empty []).1 c = some []) := by
  refine ⟨?_, ?_, ?_, ?_⟩
  · rw [getDataCodeDict_eq]
  · intro s p
    exact ⟨codeTable_leafAt T s p, codeTable_of_leafAt T hdistinct s p⟩
  · intro s
    constructor
    · intro h
      by_contra hs
      have hn : codeTable T s = none := codeTable_none T s hs
      simp only [codeTable] at hn
      simp [HashMap.containsKey, hn] at h
    · intro h
      exact codeTable_isSome T s h
  · intro c n
    simp [getDataCodeDict, HashMap.put]

/-- C15 on the two-leaf tree with leaves 97 and `PSEUDO_EOF`. -/
theorem getDataCodeDict_paths_witness :
    (HuffmanNode.node 257 3 (.leaf 97 2) (.leaf 256 1)).leafSymbols.Nodup ∧
      ((getDataCodeDict (HuffmanNode.node 257 3 (.leaf 97 2) (.leaf 256 1))
          HashMap.empty []).2 = [] ∧
        (∀ (s : Int) (p : Code),
          (getDataCodeDict (HuffmanNode.node 257 3 (.leaf 97 2) (.leaf 256 1))
              HashMap.empty []).1 s = some p ↔
            (HuffmanNode.node 257 3 (.leaf 97 2) (.leaf 256 1)).leafAt p = some s) ∧
        (∀ s : Int,
          HashMap.containsKey (getDataCodeDict
              (HuffmanNode.node 257 3 (.leaf 97 2) (.leaf 256 1)) HashMap.empty []).1 s = true ↔
            s ∈ (HuffmanNode.node 257 3 (.leaf 97 2) (.leaf 256 1)).leafSymbols) ∧
        (∀ c n : Int, (getDataCodeDict (.leaf c n) HashMap.empty []).1 c = some [])) :=
  ⟨by decide, getDataCodeDict_paths (HuffmanNode.node 257 3 (.leaf 97 2) (.leaf 256 1))
    (by decide)⟩

/-- C18 (trailing bits are ignored). For every byte sequence `S`, with `T` the
tree built from the frequency mapping of `S`, and for every bit sequence `X`:
`decodeData` with `T` on the bits `encodeData` wrote for `S` followed by `X`
writes exactly `S` and leaves exactly `X` unread, whenever the fuel allows one
iteration per byte of `S`. -/
theorem decodeData_ignores_trailing_bits (tie : TieBreak) (S : List Byte) (X : List Bool)
    (fuel : Nat) (hfuel : S.length ≤ fuel) :
    ∃ (T : HuffmanNode) (bits : List Bool),
      buildEncodingTreeHelper tie (getCharPopulation (IStream.ofList S) []).2 = .ok T ∧
      encodeData (IStream.ofList S) T = .ok bits ∧
      decodeData fuel (bits ++ X) T = .ok (S, X) := by
  by_cases hs : S = []
  · subst hs
    exact ⟨.leaf PSEUDO_EOF 1, [], rfl, rfl, decodeData_sentinel_leaf 1 X fuel⟩
  · obtain ⟨t, ht, _⟩ := buildEncodingTreeHelper_ok tie _ (charPopulationOf_ne_nil S)
    have hperm := buildEncodingTreeHelper_leafSymbols tie _ t ht
    have heof : PSEUDO_EOF ∈ t.leafSymbols :=
      hperm.mem_iff.2 ((charPopulationOf_keys S _).2 (Or.inl rfl))
    have hmem : ∀ b ∈ S, (b.val : Int) ∈ t.leafSymbols := fun b hb =>
      hperm.mem_iff.2 ((charPopulationOf_keys S _).2 (Or.inr ⟨b, hb, rfl⟩))
    refine ⟨t, _, ht, encodeData_eq (IStream.ofList S) t, ?_⟩
    have hd := decodeData_codes t S X fuel heof hmem hfuel
    simpa [IStream.ofList, hs] using hd

/-- C18 on the input 97 97 98 followed by the bits 1 0 1. -/
theorem decodeData_ignores_trailing_bits_witness :
    ([97, 97, 98] : List Byte).length ≤ 3 ∧
      ∃ (T : HuffmanNode) (bits : List Bool),
        buildEncodingTreeHelper fifo (getCharPopulation (IStream.ofList [97, 97, 98]) []).2 =
          .ok T ∧
        encodeData (IStream.ofList [97, 97, 98]) T = .ok bits ∧
        decodeData 3 (bits ++ [true, false, true]) T = .ok ([97, 97, 98], [true, false, true]) :=
  ⟨by decide, decodeData_ignores_trailing_bits fifo [97, 97, 98] [true, false, true] 3
    (by decide)⟩

/-- C20, as stated, fails: on the two-leaf tree with leaves 97 and `PSEUDO_EOF`
and the input 98, whose only symbol is missing from the tree, `encodeData`
writes the code of the sentinel, while on that input with the missing symbol
removed (the empty input) it writes nothing. -/
theorem encodeData_all_symbols_missing :
    encodeData (IStream.ofList [98]) (HuffmanNode.node 257 2 (.leaf 97 1) (.leaf 256 1)) =
        .ok [true] ∧
      encodeData
          (IStream.ofList (([98] : List Byte).filter (fun b =>
            decide ((b.val : Int) ∈
              (HuffmanNode.node 257 2 (.leaf 97 1) (.leaf 256 1)).leafSymbols))))
          (HuffmanNode.node 257 2 (.leaf 97 1) (.leaf 256 1)) = .ok [] := by
  decide

/-- C20, amended (symbols missing from the tree). For every tree `T` and input
`S`: the table lookup of a symbol that is not a leaf of `T` yields the empty
code, `encodeData` signals no error and writes no bit for such a symbol, and
its output equals its output on `S` with those symbols removed whenever `S` is
empty or at least one symbol of `S` is a leaf of `T`. (When every symbol of a
non-empty `S` is missing, the output is the code of the sentinel alone.) -/
theorem encodeData_missing_symbols (T : HuffmanNode) (S : List Byte) :
    (∀ b : Byte, (b.val : Int) ∉ T.leafSymbols → (codeTable T).getD (b.val : Int) = []) ∧
      encodeData (IStream.ofList S) T =
        .ok (if S = [] then []
          else concatCodes (codeTable T)
              (S.filter (fun b => decide ((b.val : Int) ∈ T.leafSymbols))) ++
            (codeTable T).getD PSEUDO_EOF) ∧
      ((S = [] ∨ S.filter (fun b => decide ((b.val : Int) ∈ T.leafSymbols)) ≠ []) →
        encodeData (IStream.ofList S) T =
          encodeData
            (IStream.ofList (S.filter (fun b => decide ((b.val : Int) ∈ T.leafSymbols)))) T) := by
  have hmiss : ∀ b : Byte, decide ((b.val : Int) ∈ T.leafSymbols) = false →
      (codeTable T).getD (b.val : Int) = [] := by
    intro b hb
    exact codeTable_getD_missing T _ (by simpa using hb)
  have hcc := concatCodes_filter (codeTable T)
    (fun b => decide ((b.val : Int) ∈ T.leafSymbols)) S hmiss
  have h1 := encodeData_eq (IStream.ofList S) T
  have h2 := encodeData_eq
    (IStream.ofList (S.filter (fun b => decide ((b.val : Int) ∈ T.leafSymbols)))) T
  simp only [IStream.ofList] at h1 h2
  refine ⟨fun b hb => codeTable_getD_missing T _ hb, ?_, ?_⟩
  · simp only [IStream.ofList]
    rw [h1, hcc]
  · intro hS
    simp only [IStream.ofList]
    rw [h1, h2, hcc]
    rcases hS with hS | hS
    · subst hS
      simp
    · have hne : S ≠ [] := by
        rintro rfl
        simp at hS
      simp [hS, hne]

/-! ## The input aaaab -/

theorem charPopulationOf_aaaab :
    charPopulationOf [97, 97, 97, 97, 98] = [(97, 4), (98, 1), (256, 1)] := by
  decide

theorem buildEncodingTreeHelper_aaaab (tie : TieBreak) :
    buildEncodingTreeHelper tie [(97, 4), (98, 1), (256, 1)] =
        .ok (.node NOT_A_CHAR 6 (.node NOT_A_CHAR 2 (.leaf 98 1) (.leaf 256 1)) (.leaf 97 4)) ∨
      buildEncodingTreeHelper tie [(97, 4), (98, 1), (256, 1)] =
        .ok (.node NOT_A_CHAR 6 (.node NOT_A_CHAR 2 (.leaf 256 1) (.leaf 98 1)) (.leaf 97 4)) := by
  cases h : tie (.leaf 256 1) (.leaf 98 1) with
  | false =>
    left
    simp [buildEncodingTreeHelper, enqueueLeaves, Map.keys, Map.get, PriorityQueue.enqueue, h,
      mergeLoop, PriorityQueue.peekPriority, PriorityQueue.dequeue, bind, Except.bind, pure,
      Except.pure, toInt32]
  | true =>
    right
    simp [buildEncodingTreeHelper, enqueueLeaves, Map.keys, Map.get, PriorityQueue.enqueue, h,
      mergeLoop, PriorityQueue.peekPriority, PriorityQueue.dequeue, bind, Except.bind, pure,
      Except.pure, toInt32]

/-- C11 (the input aaaab). Whichever way the queue resolves the tie between the
byte 98 and the sentinel, `buildEncodingTree` on the input 97 97 97 97 98
yields a tree in whose code table the code of 97 is strictly shorter than, so
no longer than, the code of 98, and the code of 98 is no longer than the code
of `PSEUDO_EOF`. -/
theorem aaaab_code_lengths (tie : TieBreak) :
    ∃ (input : IStream) (t : HuffmanNode),
      buildEncodingTree tie (IStream.ofList [97, 97, 97, 97, 98]) = .ok (input, t) ∧
      ((codeTable t).getD 97).length < ((codeTable t).getD 98).length ∧
      ((codeTable t).getD 97).length ≤ ((codeTable t).getD 98).length ∧
      ((codeTable t).getD 98).length ≤ ((codeTable t).getD PSEUDO_EOF).length := by
  rcases buildEncodingTreeHelper_aaaab tie with h | h
  · refine ⟨_, _, buildEncodingTree_eq tie [97, 97, 97, 97, 98] _
      (by rw [charPopulationOf_aaaab]; exact h), ?_, ?_, ?_⟩ <;> decide
  · refine ⟨_, _, buildEncodingTree_eq tie [97, 97, 97, 97, 98] _
      (by rw [charPopulationOf_aaaab]; exact h), ?_, ?_, ?_⟩ <;> decide

/-! ## Shape and weights of the built tree: auxiliary facts -/

theorem mergeLoop_succ (tie : TieBreak) (f : Nat) (q : PriorityQueue) (h : 1 < q.length) :
    mergeLoop tie (f + 1) q = mergeLoop tie f (mergeStep tie q) := by
  match q, h with
  | (c1, p1) :: (c2, p2) :: r, _ =>
    simp [mergeLoop, mergeStep, PriorityQueue.peekPriority, PriorityQueue.dequeue, bind,
      Except.bind]

theorem mergeLoop_short (tie : TieBreak) (f : Nat) (q : PriorityQueue) (h : q.length ≤ 1) :
    mergeLoop tie f q = .ok q := by
  have h2 : ¬ (q.length > 1) := by omega
  cases f <;> simp [mergeLoop, h2]

theorem mergeStep_length (tie : TieBreak) (q : PriorityQueue) (h : 1 < q.length) :
    (mergeStep tie q).length + 1 = q.length := by
  match q, h with
  | (c1, p1) :: (c2, p2) :: r, _ =>
    simp [mergeStep, PriorityQueue.enqueue_length]

theorem mergeLoop_invariant (tie : TieBreak) (P : PriorityQueue → Prop)
    (hstep : ∀ q, 1 < q.length → P q → P (mergeStep tie q)) (f : Nat) :
    ∀ q q', P q → mergeLoop tie f q = .ok q' → P q' := by
  induction f with
  | zero =>
    intro q q' hP h
    by_cases hl : 1 < q.length
    · simp [mergeLoop, hl] at h
    · rw [mergeLoop_short tie 0 q (by omega)] at h
      cases h
      exact hP
  | succ f ih =>
    intro q q' hP h
    by_cases hl : 1 < q.length
    · rw [mergeLoop_succ tie f q hl] at h
      exact ih _ _ (hstep q hl hP) h
    · rw [mergeLoop_short tie _ q (by omega)] at h
      cases h
      exact hP

theorem mergeLoop_outOfFuel (tie : TieBreak) (f : Nat) :
    ∀ q : PriorityQueue, f + 1 < q.length → mergeLoop tie f q = .error .outOfFuel := by
  induction f with
  | zero =>
    intro q h
    have : q.length > 1 := by omega
    simp [mergeLoop, this]
  | succ f ih =>
    intro q h
    have hl : 1 < q.length := by omega
    rw [mergeLoop_succ tie f q hl]
    apply ih
    have := mergeStep_length tie q hl
    omega

theorem mergeLoop_mono (tie : TieBreak) (f : Nat) :
    ∀ (q q' : PriorityQueue), mergeLoop tie f q = .ok q' → mergeLoop tie (f + 1) q = .ok q' := by
  induction f with
  | zero =>
    intro q q' h
    by_cases hl : 1 < q.length
    · simp [mergeLoop, hl] at h
    · rw [mergeLoop_short tie 0 q (by omega)] at h
      rw [mergeLoop_short tie 1 q (by omega)]
      exact h
  | succ f ih =>
    intro q q' h
    by_cases hl : 1 < q.length
    · rw [mergeLoop_succ tie f q hl] at h
      rw [mergeLoop_succ tie (f + 1) q hl]
      exact ih _ _ h
    · rw [mergeLoop_short tie _ q (by omega)] at h
      rw [mergeLoop_short tie _ q (by omega)]
      exact h

theorem mergeLoop_mono_le (tie : TieBreak) (f g : Nat) (hfg : f ≤ g) (q q' : PriorityQueue)
    (h : mergeLoop tie f q = .ok q') : mergeLoop tie g q = .ok q' := by
  induction g with
  | zero =>
    have : f = 0 := by omega
    subst this
    exact h
  | succ g ih =>
    by_cases hf : f = g + 1
    · subst hf
      exact h
    · exact mergeLoop_mono tie g q q' (ih (by omega))

theorem enqueueLeaves_invariant (tie : TieBreak) (m : Map) (P : PriorityQueue → Prop)
    (hstep : ∀ q k, P q → P (PriorityQueue.enqueue tie q (.leaf k (m.get k)) (m.get k)))
    (ks : List Int) : ∀ q, P q → P (enqueueLeaves tie m ks q) := by
  induction ks with
  | nil => exact fun q h => h
  | cons k r ih => exact fun q h => ih _ (hstep q k h)

theorem weightsAdd_count (t : HuffmanNode) (h : t.weightsAdd) :
    t.count = (t.leafEntries.map Prod.snd).sum := by
  induction t with
  | leaf c n => simp [HuffmanNode.count, HuffmanNode.leafEntries]
  | node c n z o ihz iho =>
    obtain ⟨h1, h2, h3⟩ := h
    show n = _
    rw [h1, ihz h2, iho h3]
    simp [HuffmanNode.leafEntries]

theorem internalCount_eq (t : HuffmanNode) : t.internalCount + 1 = t.leafEntries.length := by
  induction t with
  | leaf c n => rfl
  | node c n z o ihz iho =>
    simp only [HuffmanNode.internalCount, HuffmanNode.leafEntries, List.length_append]
    omega

theorem Map.get_of_wf_cons (k v : Int) (r : Map) (h : Map.WF ((k, v) :: r)) (x : Int)
    (hx : x ∈ Map.keys r) : Map.get ((k, v) :: r) x = Map.get r x := by
  simp only [Map.WF, Map.keys, List.map_cons, List.pairwise_cons] at h
  have hlt : k < x := h.1 x hx
  have hne : x ≠ k := ne_of_gt hlt
  simp [Map.get, hne]

theorem Map.entries_eq (m : Map) (h : m.WF) : m.keys.map (fun k => (k, m.get k)) = m := by
  induction m with
  | nil => rfl
  | cons e r ih =>
    obtain ⟨k, v⟩ := e
    have hr : Map.WF r := by
      simp only [Map.WF, Map.keys, List.map_cons, List.pairwise_cons] at h
      exact h.2
    have ih2 := ih hr
    simp only [Map.keys, List.map_cons, List.map_map] at ih2 ⊢
    have hhead : Map.get ((k, v) :: r) k = v := by simp [Map.get]
    rw [hhead]
    congr 1
    rw [← ih2]
    simp only [List.map_map]
    apply List.map_congr_left
    intro a ha
    simp only [Function.comp_apply, Prod.mk.injEq, true_and]
    rw [ih2]
    exact Map.get_of_wf_cons k v r h a.1 (List.mem_map.2 ⟨a, ha, rfl⟩)

theorem buildEncodingTreeHelper_run (tie : TieBreak) (m : Map) (hm : m ≠ []) :
    ∃ t p, mergeLoop tie (m.size - 1) (enqueueLeaves tie m m.keys []) = .ok [(t, p)] ∧
      buildEncodingTreeHelper tie m = .ok t := by
  have hlen : (enqueueLeaves tie m m.keys []).length = m.size := by
    simp [enqueueLeaves_length, Map.keys, Map.size]
  have hpos : 0 < m.size := List.length_pos.2 hm
  obtain ⟨q', h1, h2, _⟩ := mergeLoop_ok tie (m.size - 1) (enqueueLeaves tie m m.keys [])
    (by omega)
  have hq' : q'.length = 1 := by
    rw [h2, hlen]
    omega
  match q', hq' with
  | [(t, p)], _ =>
    refine ⟨t, p, h1, ?_⟩
    have h3 := mergeLoop_mono_le tie (m.size - 1) (enqueueLeaves tie m m.keys []).length
      (by omega) _ _ h1
    simp [buildEncodingTreeHelper, h3, PriorityQueue.dequeue, bind, Except.bind, pure,
      Except.pure]

/-! ## Heavier symbols get codes that are no longer: auxiliary facts -/

theorem Separated.symm {a b : Int × Int} (h : Separated a b) : Separated b a :=
  Or.symm h

theorem count_nonneg (t : HuffmanNode) (hw : t.weightsAdd) (hn : t.nonneg) : 0 ≤ t.count := by
  rw [weightsAdd_count t hw]
  apply List.sum_nonneg
  intro x hx
  obtain ⟨e, he, rfl⟩ := List.mem_map.1 hx
  exact hn e he

theorem nonneg_node (c n : Int) (z o : HuffmanNode) :
    (HuffmanNode.node c n z o).nonneg ↔ z.nonneg ∧ o.nonneg := by
  simp only [HuffmanNode.nonneg, HuffmanNode.leafEntries, List.mem_append]
  constructor
  · intro h
    exact ⟨fun e he => h e (Or.inl he), fun e he => h e (Or.inr he)⟩
  · rintro ⟨h1, h2⟩ e (he | he)
    · exact h1 e he
    · exact h2 e he

theorem PriorityQueue.enqueue_sorted (tie : TieBreak) (q : PriorityQueue) (v : HuffmanNode)
    (p : Int) (h : q.Pairwise (fun a b => a.2 ≤ b.2)) :
    (PriorityQueue.enqueue tie q v p).Pairwise (fun a b => a.2 ≤ b.2) := by
  induction q with
  | nil => simp [PriorityQueue.enqueue]
  | cons e r ih =>
    obtain ⟨w, pw⟩ := e
    rw [List.pairwise_cons] at h
    unfold PriorityQueue.enqueue
    split
    · rename_i hc
      have hle : p ≤ pw := by
        rcases hc with hc | hc
        · exact le_of_lt hc
        · exact le_of_eq hc.1
      rw [List.pairwise_cons]
      refine ⟨?_, List.pairwise_cons.2 h⟩
      intro b hb
      rcases List.mem_cons.1 hb with rfl | hb
      · exact hle
      · exact le_trans hle (h.1 b hb)
    · rename_i hc
      have hle : pw ≤ p := by
        by_contra hlt
        exact hc (Or.inl (not_le.1 hlt))
      rw [List.pairwise_cons]
      refine ⟨?_, ih h.2⟩
      intro b hb
      rcases List.mem_cons.1 ((PriorityQueue.enqueue_perm tie r v p).mem_iff.1 hb) with rfl | hb
      · exact hle
      · exact h.1 b hb

theorem PriorityQueue.merges_enqueue (tie : TieBreak) (q : PriorityQueue) (v : HuffmanNode)
    (p : Int) :
    (PriorityQueue.merges (PriorityQueue.enqueue tie q v p)).Perm
      (v.merges ++ PriorityQueue.merges q) := by
  have h := (PriorityQueue.enqueue_perm tie q v p).flatMap_right
    (fun e : HuffmanNode × Int => e.1.merges)
  simpa [PriorityQueue.merges] using h

theorem huffInv_enqueue_leaf (tie : TieBreak) (q : PriorityQueue) (k n : Int) (hn : 0 ≤ n)
    (hq : PriorityQueue.HuffInv q) (hm : PriorityQueue.merges q = []) :
    PriorityQueue.HuffInv (PriorityQueue.enqueue tie q (.leaf k n) n) ∧
      PriorityQueue.merges (PriorityQueue.enqueue tie q (.leaf k n) n) = [] := by
  have hperm := PriorityQueue.merges_enqueue tie q (.leaf k n) n
  have hnil : PriorityQueue.merges (PriorityQueue.enqueue tie q (.leaf k n) n) = [] := by
    rw [hm] at hperm
    simpa [HuffmanNode.merges] using hperm
  refine ⟨⟨PriorityQueue.enqueue_sorted tie q _ _ hq.1, ?_, ?_, ?_⟩, hnil⟩
  · intro e he
    rcases List.mem_cons.1 ((PriorityQueue.enqueue_perm tie q _ _).mem_iff.1 he) with rfl | he
    · refine ⟨rfl, trivial, ?_⟩
      intro e he
      simp only [HuffmanNode.leafEntries, List.mem_singleton] at he
      rw [he]
      exact hn
    · exact hq.2.1 e he
  · rw [hnil]
    exact List.Pairwise.nil
  · intro a ha
    rw [hnil] at ha
    simp at ha

theorem huffInv_enqueueLeaves (tie : TieBreak) (m : Map) (hm : ∀ k, 0 ≤ m.get k) :
    PriorityQueue.HuffInv (enqueueLeaves tie m m.keys []) := by
  have h := enqueueLeaves_invariant tie m
    (fun q => PriorityQueue.HuffInv q ∧ PriorityQueue.merges q = [])
    (fun q k hq => huffInv_enqueue_leaf tie q k (m.get k) (hm k) hq.1 hq.2) m.keys []
    ⟨⟨List.Pairwise.nil, by simp, by simp [PriorityQueue.merges],
      by simp [PriorityQueue.merges]⟩, by simp [PriorityQueue.merges]⟩
  exact h.1

theorem huffInv_merge_exact (tie : TieBreak) (c1 c2 : HuffmanNode) (p1 p2 : Int)
    (r : PriorityQueue) (hq : PriorityQueue.HuffInv ((c1, p1) :: (c2, p2) :: r)) :
    PriorityQueue.HuffInv
      (PriorityQueue.enqueue tie r (.node NOT_A_CHAR (p1 + p2) c1 c2) (p1 + p2)) := by
  obtain ⟨hs, hw, hsep, hle⟩ := hq
  obtain ⟨hc1, hw1, hn1⟩ := hw (c1, p1) (by simp)
  obtain ⟨hc2, hw2, hn2⟩ := hw (c2, p2) (by simp)
  simp only at hc1 hc2
  have hp1 : 0 ≤ p1 := hc1 ▸ count_nonneg c1 hw1 hn1
  have hp2 : 0 ≤ p2 := hc2 ▸ count_nonneg c2 hw2 hn2
  rw [List.pairwise_cons, List.pairwise_cons] at hs
  obtain ⟨hs1, hs2, hsr⟩ := hs
  have h12 : p1 ≤ p2 := hs1 (c2, p2) (by simp)
  have hold : PriorityQueue.merges ((c1, p1) :: (c2, p2) :: r) =
      c1.merges ++ (c2.merges ++ PriorityQueue.merges r) := by
    simp [PriorityQueue.merges]
  rw [hold] at hsep hle
  have hnew : (PriorityQueue.merges
      (PriorityQueue.enqueue tie r (.node NOT_A_CHAR (p1 + p2) c1 c2) (p1 + p2))).Perm
      ((p1, p2) :: (c1.merges ++ (c2.merges ++ PriorityQueue.merges r))) := by
    have := PriorityQueue.merges_enqueue tie r (.node NOT_A_CHAR (p1 + p2) c1 c2) (p1 + p2)
    simpa [HuffmanNode.merges, hc1, hc2] using this
  have hmem : ∀ e ∈ PriorityQueue.enqueue tie r (.node NOT_A_CHAR (p1 + p2) c1 c2) (p1 + p2),
      e = (HuffmanNode.node NOT_A_CHAR (p1 + p2) c1 c2, p1 + p2) ∨ e ∈ r := by
    intro e he
    exact List.mem_cons.1 ((PriorityQueue.enqueue_perm tie r _ _).mem_iff.1 he)
  refine ⟨PriorityQueue.enqueue_sorted tie r _ _ hsr, ?_, ?_, ?_⟩
  · intro e he
    rcases hmem e he with rfl | he
    · refine ⟨rfl, ⟨by rw [hc1, hc2], hw1, hw2⟩, ?_⟩
      exact (nonneg_node _ _ _ _).2 ⟨hn1, hn2⟩
    · exact hw e (by simp [he])
  · refine (@List.Perm.pairwise_iff _ Separated (fun {_ _} h => Separated.symm h) _ _
      hnew).2 ?_
    rw [List.pairwise_cons]
    refine ⟨?_, hsep⟩
    intro a ha
    have ha1 := hle a ha (c1, p1) (by simp)
    have ha2 := hle a ha (c2, p2) (by simp)
    exact Or.inr ⟨ha1.1, ha2.1, ha1.2, ha2.2⟩
  · intro a ha e he
    rcases List.mem_cons.1 (hnew.mem_iff.1 ha) with rfl | ha
    · rcases hmem e he with rfl | he
      · simp only
        constructor <;> omega
      · have := hs2 e he
        simp only at this ⊢
        constructor <;> omega
    · rcases hmem e he with rfl | he
      · have ha1 := hle a ha (c1, p1) (by simp)
        simp only at ha1 ⊢
        constructor <;> omega
      · exact hle a ha e (by simp [he])

theorem total_nonneg (q : PriorityQueue) (h : ∀ e ∈ q, e.1.nonneg) :
    0 ≤ PriorityQueue.total q := by
  apply List.sum_nonneg
  intro x hx
  obtain ⟨e, he, rfl⟩ := List.mem_map.1 hx
  simp only [PriorityQueue.leafEntries, List.mem_flatMap] at he
  obtain ⟨t, ht, het⟩ := he
  exact h t ht e het

theorem total_cons (t : HuffmanNode) (p : Int) (q : PriorityQueue) (hw : t.weightsAdd) :
    PriorityQueue.total ((t, p) :: q) = t.count + PriorityQueue.total q := by
  simp [PriorityQueue.total, PriorityQueue.leafEntries, weightsAdd_count t hw]

theorem total_enqueue (tie : TieBreak) (q : PriorityQueue) (v : HuffmanNode) (p : Int) :
    PriorityQueue.total (PriorityQueue.enqueue tie q v p) =
      PriorityQueue.total ((v, p) :: q) := by
  have h := ((PriorityQueue.enqueue_perm tie q v p).flatMap_right
    (fun e : HuffmanNode × Int => e.1.leafEntries)).map Prod.snd
  exact h.sum_eq

theorem mergeStep_exact (tie : TieBreak) (c1 c2 : HuffmanNode) (p1 p2 : Int)
    (r : PriorityQueue) (hq : PriorityQueue.HuffInv ((c1, p1) :: (c2, p2) :: r))
    (htot : PriorityQueue.total ((c1, p1) :: (c2, p2) :: r) ≤ 2147483647) :
    mergeStep tie ((c1, p1) :: (c2, p2) :: r) =
      PriorityQueue.enqueue tie r (.node NOT_A_CHAR (p1 + p2) c1 c2) (p1 + p2) := by
  obtain ⟨hc1, hw1, hn1⟩ := hq.2.1 (c1, p1) (by simp)
  obtain ⟨hc2, hw2, hn2⟩ := hq.2.1 (c2, p2) (by simp)
  simp only at hc1 hc2
  have hp1 : 0 ≤ p1 := hc1 ▸ count_nonneg c1 hw1 hn1
  have hp2 : 0 ≤ p2 := hc2 ▸ count_nonneg c2 hw2 hn2
  have hr : 0 ≤ PriorityQueue.total r :=
    total_nonneg r (fun e he => (hq.2.1 e (by simp [he])).2.2)
  rw [total_cons c1 p1 _ hw1, total_cons c2 p2 _ hw2, hc1, hc2] at htot
  have hin : toInt32 (p1 + p2) = p1 + p2 := toInt32_of_inRange _ (by omega) (by omega)
  simp only [mergeStep, hin]

theorem huffInv_mergeStep (tie : TieBreak) (q : PriorityQueue)
    (hq : PriorityQueue.HuffInv q ∧ PriorityQueue.total q ≤ 2147483647) :
    PriorityQueue.HuffInv (mergeStep tie q) ∧
      PriorityQueue.total (mergeStep tie q) ≤ 2147483647 := by
  match q, hq with
  | [], hq => exact hq
  | [x], hq => exact hq
  | (c1, p1) :: (c2, p2) :: r, ⟨hinv, htot⟩ =>
    obtain ⟨hc1, hw1, hn1⟩ := hinv.2.1 (c1, p1) (by simp)
    obtain ⟨hc2, hw2, hn2⟩ := hinv.2.1 (c2, p2) (by simp)
    simp only at hc1 hc2
    rw [mergeStep_exact tie c1 c2 p1 p2 r hinv htot]
    refine ⟨huffInv_merge_exact tie c1 c2 p1 p2 r hinv, ?_⟩
    have hwN : (HuffmanNode.node NOT_A_CHAR (p1 + p2) c1 c2).weightsAdd :=
      ⟨by rw [hc1, hc2], hw1, hw2⟩
    rw [total_enqueue, total_cons _ _ _ hwN]
    rw [total_cons c1 p1 _ hw1, total_cons c2 p2 _ hw2, hc1, hc2] at htot
    show p1 + p2 + PriorityQueue.total r ≤ 2147483647
    omega

theorem subtree_nil (t : HuffmanNode) : t.subtree [] = some t := by
  cases t <;> rfl

theorem subtree_snoc (t : HuffmanNode) (q : Code) (b : Bool) (v : HuffmanNode)
    (h : t.subtree (q ++ [b]) = some v) :
    ∃ c n z o, t.subtree q = some (.node c n z o) ∧ v = (if b = true then o else z) := by
  induction q generalizing t with
  | nil =>
    cases t with
    | leaf c n => simp [HuffmanNode.subtree] at h
    | node c n z o =>
      refine ⟨c, n, z, o, rfl, ?_⟩
      cases b <;> simp only [List.nil_append, HuffmanNode.subtree, subtree_nil,
        Option.some.injEq] at h <;> simp [h]
  | cons x q ih =>
    cases t with
    | leaf c n => simp [HuffmanNode.subtree] at h
    | node c n z o =>
      cases x with
      | false =>
        simp only [List.cons_append, HuffmanNode.subtree] at h ⊢
        exact ih z h
      | true =>
        simp only [List.cons_append, HuffmanNode.subtree] at h ⊢
        exact ih o h

theorem subtree_props (t : HuffmanNode) (hw : t.weightsAdd) (hn : t.nonneg) (p : Code)
    (u : HuffmanNode) (h : t.subtree p = some u) :
    u.weightsAdd ∧ u.nonneg ∧ u.count ≤ t.count := by
  induction p generalizing t with
  | nil =>
    rw [subtree_nil] at h
    cases h
    exact ⟨hw, hn, le_refl _⟩
  | cons x p ih =>
    cases t with
    | leaf c n => simp [HuffmanNode.subtree] at h
    | node c n z o =>
      obtain ⟨hsum, hwz, hwo⟩ := hw
      obtain ⟨hnz, hno⟩ := (nonneg_node c n z o).1 hn
      have hz := count_nonneg z hwz hnz
      have ho := count_nonneg o hwo hno
      cases x with
      | false =>
        simp only [HuffmanNode.subtree] at h
        obtain ⟨h1, h2, h3⟩ := ih z hwz hnz h
        refine ⟨h1, h2, ?_⟩
        show u.count ≤ n
        omega
      | true =>
        simp only [HuffmanNode.subtree] at h
        obtain ⟨h1, h2, h3⟩ := ih o hwo hno h
        refine ⟨h1, h2, ?_⟩
        show u.count ≤ n
        omega

theorem merges_mem_of_subtree (t : HuffmanNode) (p : Code) (c n : Int) (z o : HuffmanNode)
    (h : t.subtree p = some (.node c n z o)) : (z.count, o.count) ∈ t.merges := by
  induction p generalizing t with
  | nil =>
    rw [subtree_nil] at h
    cases h
    simp [HuffmanNode.merges]
  | cons x p ih =>
    cases t with
    | leaf c' n' => simp [HuffmanNode.subtree] at h
    | node c' n' z' o' =>
      cases x with
      | false =>
        simp only [HuffmanNode.subtree] at h
        simp only [HuffmanNode.merges, List.mem_cons, List.mem_append]
        exact Or.inr (Or.inl (ih z' h))
      | true =>
        simp only [HuffmanNode.subtree] at h
        simp only [HuffmanNode.merges, List.mem_cons, List.mem_append]
        exact Or.inr (Or.inr (ih o' h))

theorem separated_of_paths (t : HuffmanNode) (hsep : t.merges.Pairwise Separated) :
    ∀ (p p' : Code) (c n : Int) (z o : HuffmanNode) (c' n' : Int) (z' o' : HuffmanNode),
      p ≠ p' → t.subtree p = some (.node c n z o) → t.subtree p' = some (.node c' n' z' o') →
      Separated (z.count, o.count) (z'.count, o'.count) := by
  induction t with
  | leaf a w =>
    intro p p' c n z o c' n' z' o' _ h _
    cases p with
    | nil => simp [HuffmanNode.subtree] at h
    | cons x p => simp [HuffmanNode.subtree] at h
  | node a w zt ot ihz iho =>
    intro p p' c n z o c' n' z' o' hne h h'
    simp only [HuffmanNode.merges, List.pairwise_cons, List.pairwise_append] at hsep
    obtain ⟨hroot, hz, ho, hcross⟩ := hsep
    cases p with
    | nil =>
      rw [subtree_nil] at h
      cases h
      cases p' with
      | nil => exact absurd rfl hne
      | cons x' r' =>
        cases x' with
        | false =>
          simp only [HuffmanNode.subtree] at h'
          exact hroot _ (List.mem_append.2 (Or.inl (merges_mem_of_subtree _ _ _ _ _ _ h')))
        | true =>
          simp only [HuffmanNode.subtree] at h'
          exact hroot _ (List.mem_append.2 (Or.inr (merges_mem_of_subtree _ _ _ _ _ _ h')))
    | cons x r =>
      cases p' with
      | nil =>
        rw [subtree_nil] at h'
        cases h'
        cases x with
        | false =>
          simp only [HuffmanNode.subtree] at h
          exact (hroot _ (List.mem_append.2
            (Or.inl (merges_mem_of_subtree _ _ _ _ _ _ h)))).symm
        | true =>
          simp only [HuffmanNode.subtree] at h
          exact (hroot _ (List.mem_append.2
            (Or.inr (merges_mem_of_subtree _ _ _ _ _ _ h)))).symm
      | cons x' r' =>
        cases x with
        | false =>
          cases x' with
          | false =>
            simp only [HuffmanNode.subtree] at h h'
            exact ihz hz r r' c n z o c' n' z' o' (fun hh => hne (by rw [hh])) h h'
          | true =>
            simp only [HuffmanNode.subtree] at h h'
            exact hcross _ (merges_mem_of_subtree _ _ _ _ _ _ h) _
              (merges_mem_of_subtree _ _ _ _ _ _ h')
        | true =>
          cases x' with
          | false =>
            simp only [HuffmanNode.subtree] at h h'
            exact (hcross _ (merges_mem_of_subtree _ _ _ _ _ _ h') _
              (merges_mem_of_subtree _ _ _ _ _ _ h)).symm
          | true =>
            simp only [HuffmanNode.subtree] at h h'
            exact iho ho r r' c n z o c' n' z' o' (fun hh => hne (by rw [hh])) h h'

theorem lighter_is_deeper (t : HuffmanNode) (hw : t.weightsAdd) (hn : t.nonneg)
    (hsep : t.merges.Pairwise Separated) (k : Nat) :
    ∀ (pu pv : Code) (u v : HuffmanNode), pv.length = k →
      t.subtree pu = some u → t.subtree pv = some v → u.count < v.count →
      pv.length ≤ pu.length := by
  induction k with
  | zero =>
    intro pu pv u v hk _ _ _
    omega
  | succ k ih =>
    intro pu pv u v hk hu hv hlt
    rcases List.eq_nil_or_concat pv with rfl | ⟨qv, bv, rfl⟩
    · simp at hk
    · rw [List.concat_eq_append] at hv hk ⊢
      obtain ⟨c', n', z', o', hqv, hv'⟩ := subtree_snoc t qv bv v hv
      rcases List.eq_nil_or_concat pu with rfl | ⟨qu, bu, rfl⟩
      · rw [subtree_nil] at hu
        cases hu
        have := (subtree_props t hw hn _ v hv).2.2
        omega
      · rw [List.concat_eq_append] at hu ⊢
        obtain ⟨c, n, z, o, hqu, hu'⟩ := subtree_snoc t qu bu u hu
        by_cases hq : qu = qv
        · subst hq
          simp
        · have hs := separated_of_paths t hsep qu qv c n z o c' n' z' o' hq hqu hqv
          have hN := (subtree_props t hw hn qu _ hqu).1.1
          have hN' := (subtree_props t hw hn qv _ hqv).1.1
          have hlen : qv.length = k := by
            simp only [List.length_append, List.length_singleton] at hk
            omega
          rcases hs with ⟨h1, h2, h3, h4⟩ | ⟨h1, h2, h3, h4⟩
          · have hcount : (HuffmanNode.node c n z o).count <
                (HuffmanNode.node c' n' z' o').count := by
              show n < n'
              cases bu <;> cases bv <;>
                simp only [Bool.false_eq_true, if_false, if_true] at hu' hv' <;>
                subst hu' <;> subst hv' <;> omega
            have := ih qu qv _ _ hlen hqu hqv hcount
            simp only [List.length_append, List.length_singleton]
            omega
          · exfalso
            cases bu <;> cases bv <;>
              simp only [Bool.false_eq_true, if_false, if_true] at hu' hv' <;>
              subst hu' <;> subst hv' <;> omega

theorem subtree_of_leafAt (t : HuffmanNode) (p : Code) (s : Int) (h : t.leafAt p = some s) :
    ∃ n, t.subtree p = some (.leaf s n) ∧ (s, n) ∈ t.leafEntries := by
  induction t generalizing p with
  | leaf c n =>
    cases p with
    | nil =>
      simp only [HuffmanNode.leafAt, Option.some.injEq] at h
      subst h
      exact ⟨n, rfl, by simp [HuffmanNode.leafEntries]⟩
    | cons x p => simp [HuffmanNode.leafAt] at h
  | node c n z o ihz iho =>
    cases p with
    | nil => simp [HuffmanNode.leafAt] at h
    | cons x p =>
      cases x with
      | false =>
        simp only [HuffmanNode.leafAt] at h
        obtain ⟨w, h1, h2⟩ := ihz p h
        exact ⟨w, by simpa [HuffmanNode.subtree] using h1,
          by simp [HuffmanNode.leafEntries, h2]⟩
      | true =>
        simp only [HuffmanNode.leafAt] at h
        obtain ⟨w, h1, h2⟩ := iho p h
        exact ⟨w, by simpa [HuffmanNode.subtree] using h1,
          by simp [HuffmanNode.leafEntries, h2]⟩

theorem Map.get_nonneg (m : Map) (h : ∀ e ∈ m, 0 ≤ e.2) (k : Int) : 0 ≤ m.get k := by
  induction m with
  | nil => exact le_refl _
  | cons e r ih =>
    obtain ⟨k', v⟩ := e
    by_cases hk : k = k'
    · simp only [Map.get, hk, if_true]
      exact h (k', v) (by simp)
    · simp only [Map.get, hk, if_false]
      exact ih (fun e he => h e (by simp [he]))

theorem Map.incr_sum (m : Map) (k : Int) (hnn : ∀ e ∈ m, 0 ≤ e.2)
    (hs : (m.map Prod.snd).sum + 1 ≤ 2147483647) :
    ((m.incr k).map Prod.snd).sum = (m.map Prod.snd).sum + 1 ∧ ∀ e ∈ m.incr k, 0 ≤ e.2 := by
  induction m with
  | nil => simp [Map.incr]
  | cons e r ih =>
    obtain ⟨k', v⟩ := e
    have hv : 0 ≤ v := hnn (k', v) (by simp)
    have hr : ∀ e ∈ r, 0 ≤ e.2 := fun e he => hnn e (by simp [he])
    have hrs : 0 ≤ (r.map Prod.snd).sum := by
      apply List.sum_nonneg
      intro x hx
      obtain ⟨e, he, rfl⟩ := List.mem_map.1 hx
      exact hr e he
    simp only [List.map_cons, List.sum_cons] at hs
    unfold Map.incr
    by_cases h1 : k < k'
    · simp only [h1, if_true, List.map_cons, List.sum_cons]
      refine ⟨by ring, ?_⟩
      intro e he
      rcases List.mem_cons.1 he with rfl | he
      · show (0 : Int) ≤ 1
        decide
      · exact hnn e he
    · by_cases h2 : k = k'
      · have hin : toInt32 (v + 1) = v + 1 := toInt32_of_inRange _ (by omega) (by omega)
        subst h2
        simp only [lt_self_iff_false, if_false, if_true, hin, List.map_cons, List.sum_cons]
        refine ⟨by ring, ?_⟩
        intro e he
        rcases List.mem_cons.1 he with rfl | he
        · show 0 ≤ v + 1
          omega
        · exact hr e he
      · obtain ⟨ih1, ih2⟩ := ih hr (by omega)
        simp only [h1, h2, if_false, List.map_cons, List.sum_cons, ih1]
        refine ⟨by ring, ?_⟩
        intro e he
        rcases List.mem_cons.1 he with rfl | he
        · exact hv
        · exact ih2 e he

theorem getCharPopulationLoop_sum (all s : List Byte) (m : Map) (hnn : ∀ e ∈ m, 0 ≤ e.2)
    (hs : (m.map Prod.snd).sum + (s.length : Int) ≤ 2147483647) :
    (((getCharPopulationLoop all s m).2).map Prod.snd).sum =
        (m.map Prod.snd).sum + (s.length : Int) ∧
      ∀ e ∈ (getCharPopulationLoop all s m).2, 0 ≤ e.2 := by
  induction s generalizing m with
  | nil => simpa [getCharPopulationLoop] using hnn
  | cons b r ih =>
    simp only [List.length_cons, Nat.cast_add, Nat.cast_one] at hs
    obtain ⟨h1, h2⟩ := Map.incr_sum m (b.val : Int) hnn (by omega)
    obtain ⟨h3, h4⟩ := ih (m.incr (b.val : Int)) h2 (by rw [h1]; omega)
    simp only [getCharPopulationLoop, List.length_cons, Nat.cast_add, Nat.cast_one]
    refine ⟨?_, h4⟩
    rw [h3, h1]
    ring

theorem charPopulationOf_sum (s : List Byte) (hs : (s.length : Int) + 1 ≤ 2147483647) :
    ((charPopulationOf s).map Prod.snd).sum = (s.length : Int) + 1 ∧
      ∀ e ∈ charPopulationOf s, 0 ≤ e.2 := by
  obtain ⟨h1, h2⟩ := getCharPopulationLoop_sum s s [] (by simp) (by simp; omega)
  obtain ⟨h3, h4⟩ := Map.incr_sum _ PSEUDO_EOF h2 (by rw [h1]; simp; omega)
  rw [charPopulationOf_eq]
  refine ⟨?_, h4⟩
  rw [h3, h1]
  simp

theorem queue_count_enqueueLeaves (tie : TieBreak) (m : Map) :
    ∀ e ∈ enqueueLeaves tie m m.keys [], e.1.count = e.2 := by
  apply enqueueLeaves_invariant tie m (fun q => ∀ e ∈ q, e.1.count = e.2)
  · intro q k hq e he
    rcases List.mem_cons.1 ((PriorityQueue.enqueue_perm tie q _ _).mem_iff.1 he) with rfl | he
    · rfl
    · exact hq e he
  · intro e he
    simp at he

theorem queue_count_mergeStep (tie : TieBreak) (q : PriorityQueue)
    (hq : ∀ e ∈ q, e.1.count = e.2) : ∀ e ∈ mergeStep tie q, e.1.count = e.2 := by
  match q, hq with
  | [], hq => exact hq
  | [x], hq => exact hq
  | (c1, p1) :: (c2, p2) :: r, hq =>
    intro e he
    rcases List.mem_cons.1 ((PriorityQueue.enqueue_perm tie r _ _).mem_iff.1 he) with rfl | he
    · rfl
    · exact hq e (by simp [he])

theorem buildEncodingTreeHelper_count (tie : TieBreak) (m : Map) (hm : m ≠ []) :
    ∃ t, mergeLoop tie (m.size - 1) (enqueueLeaves tie m m.keys []) = .ok [(t, t.count)] ∧
      buildEncodingTreeHelper tie m = .ok t := by
  obtain ⟨t, p, h1, h2⟩ := buildEncodingTreeHelper_run tie m hm
  have hinv := mergeLoop_invariant tie (fun q => ∀ e ∈ q, e.1.count = e.2)
    (fun q _ hq => queue_count_mergeStep tie q hq) _ _ _ (queue_count_enqueueLeaves tie m) h1
  have hc : t.count = p := hinv (t, p) (by simp)
  exact ⟨t, by rw [hc]; exact h1, h2⟩

theorem total_enqueueLeaves (tie : TieBreak) (m : Map) :
    PriorityQueue.total (enqueueLeaves tie m m.keys []) =
      (m.keys.map (fun k => m.get k)).sum := by
  have h := ((enqueueLeaves_leafEntries tie m m.keys []).map Prod.snd).sum_eq
  simpa [PriorityQueue.total, PriorityQueue.leafEntries, Function.comp_def] using h

theorem Map.sum_get_keys (m : Map) (h : m.WF) :
    (m.keys.map (fun k => m.get k)).sum = (m.map Prod.snd).sum := by
  have h1 := congrArg (fun l => (l.map Prod.snd).sum) (Map.entries_eq m h)
  simpa [Function.comp_def] using h1

theorem buildEncodingTreeHelper_huffInv (tie : TieBreak) (m : Map) (hm : m ≠ [])
    (hnn : ∀ k, 0 ≤ m.get k) (hsum : (m.keys.map (fun k => m.get k)).sum ≤ 2147483647) :
    ∃ t, buildEncodingTreeHelper tie m = .ok t ∧ t.weightsAdd ∧ t.nonneg ∧
      t.merges.Pairwise Separated := by
  obtain ⟨t, p, h1, h2⟩ := buildEncodingTreeHelper_run tie m hm
  have hinv := mergeLoop_invariant tie
    (fun q => PriorityQueue.HuffInv q ∧ PriorityQueue.total q ≤ 2147483647)
    (fun q _ hq => huffInv_mergeStep tie q hq) _ _ _
    ⟨huffInv_enqueueLeaves tie m hnn, by rw [total_enqueueLeaves]; exact hsum⟩ h1
  obtain ⟨⟨_, hw, hsep, _⟩, _⟩ := hinv
  obtain ⟨_, hwt, hnt⟩ := hw (t, p) (by simp)
  refine ⟨t, h2, hwt, hnt, ?_⟩
  simpa [PriorityQueue.merges] using hsep

theorem code_length_monotone (tie : TieBreak) (m : Map) (hm : m ≠ [])
    (hnn : ∀ k, 0 ≤ m.get k) (hsum : (m.keys.map (fun k => m.get k)).sum ≤ 2147483647)
    (x y : Int) (hx : x ∈ m.keys) (hy : y ∈ m.keys) (hlt : m.get y < m.get x) :
    ∃ t, buildEncodingTreeHelper tie m = .ok t ∧
      ((codeTable t).getD x).length ≤ ((codeTable t).getD y).length := by
  obtain ⟨t, ht, hw, hn, hsep⟩ := buildEncodingTreeHelper_huffInv tie m hm hnn hsum
  obtain ⟨t', ht', hperm⟩ := buildEncodingTreeHelper_ok tie m hm
  rw [ht] at ht'
  cases ht'
  have hsym := buildEncodingTreeHelper_leafSymbols tie m t ht
  have hweight : ∀ s n, (s, n) ∈ t.leafEntries → n = m.get s := by
    intro s n hsn
    obtain ⟨k, _, hk⟩ := List.mem_map.1 (hperm.mem_iff.1 hsn)
    simp only [Prod.mk.injEq] at hk
    rw [← hk.2, hk.1]
  obtain ⟨nx, hsx, hex⟩ := subtree_of_leafAt t _ x
    (leafAt_getD_codeTable t x (hsym.mem_iff.2 hx))
  obtain ⟨ny, hsy, hey⟩ := subtree_of_leafAt t _ y
    (leafAt_getD_codeTable t y (hsym.mem_iff.2 hy))
  have hnx := hweight x nx hex
  have hny := hweight y ny hey
  refine ⟨t, ht, ?_⟩
  apply lighter_is_deeper t hw hn hsep _ _ _ _ _ rfl hsy hsx
  show ny < nx
  rw [hnx, hny]
  exact hlt

theorem getCharPopulationLoop_blocks (all : List Byte) (bl : List (Byte × Nat)) :
    ∀ (m : Map),
      (m.keys ++ bl.map (fun e => (e.1.val : Int))).Pairwise (fun a b => a < b) →
      (∀ e ∈ bl, 1 ≤ e.2 ∧ (e.2 : Int) ≤ 2147483647) →
      (getCharPopulationLoop all (bl.flatMap (fun e => List.replicate e.2 e.1)) m).2 =
        m ++ bl.map (fun e => ((e.1.val : Int), (e.2 : Int))) := by
  induction bl with
  | nil =>
    intro m _ _
    simp [getCharPopulationLoop]
  | cons e r ih =>
    intro m hs hr
    obtain ⟨b, n⟩ := e
    have hk : ∀ y ∈ m.keys, y < (b.val : Int) := by
      intro y hy
      rw [List.pairwise_append] at hs
      exact hs.2.2 y hy _ (by simp)
    obtain ⟨hn1, hn2⟩ := hr (b, n) (by simp)
    have hs' : ((m ++ [((b.val : Int), (n : Int))]).keys ++
        r.map (fun e => (e.1.val : Int))).Pairwise (fun a b => a < b) := by
      simpa [Map.keys, List.append_assoc] using hs
    have h2 := ih (m ++ [((b.val : Int), (n : Int))]) hs'
      (fun e he => hr e (List.mem_cons_of_mem _ he))
    simp only [List.flatMap_cons, List.map_cons]
    rw [getCharPopulationLoop_append, getCharPopulationLoop_replicate_new all m b n hk hn1 hn2,
      h2]
    simp

theorem charPopulationOf_six_blocks (b1 b2 b3 b4 b5 b6 : Byte) (n1 n2 n3 n4 n5 n6 : Nat)
    (hs : ([b1, b2, b3, b4, b5, b6].map (fun b : Byte => (b.val : Int))).Pairwise
      (fun a b => a < b))
    (hr : ∀ n ∈ [n1, n2, n3, n4, n5, n6], 1 ≤ n ∧ (n : Int) ≤ 2147483647) :
    charPopulationOf
        (List.replicate n1 b1 ++ (List.replicate n2 b2 ++ (List.replicate n3 b3 ++
          (List.replicate n4 b4 ++ (List.replicate n5 b5 ++ List.replicate n6 b6))))) =
      [((b1.val : Int), (n1 : Int)), ((b2.val : Int), (n2 : Int)), ((b3.val : Int), (n3 : Int)),
        ((b4.val : Int), (n4 : Int)), ((b5.val : Int), (n5 : Int)), ((b6.val : Int), (n6 : Int)),
        (PSEUDO_EOF, 1)] := by
  have h := getCharPopulationLoop_blocks
    (List.replicate n1 b1 ++ (List.replicate n2 b2 ++ (List.replicate n3 b3 ++
      (List.replicate n4 b4 ++ (List.replicate n5 b5 ++ List.replicate n6 b6)))))
    [(b1, n1), (b2, n2), (b3, n3), (b4, n4), (b5, n5), (b6, n6)] []
    (by simpa [Map.keys] using hs)
    (by
      intro e he
      simp only [List.mem_cons, List.mem_singleton, List.not_mem_nil, or_false] at he
      rcases he with rfl | rfl | rfl | rfl | rfl | rfl
      · exact hr n1 (by simp)
      · exact hr n2 (by simp)
      · exact hr n3 (by simp)
      · exact hr n4 (by simp)
      · exact hr n5 (by simp)
      · exact hr n6 (by simp))
  simp only [List.flatMap_cons, List.flatMap_nil, List.append_nil, List.nil_append,
    List.map_cons, List.map_nil] at h
  rw [charPopulationOf_eq, h]
  have hk : ∀ y ∈ Map.keys [((b1.val : Int), (n1 : Int)), ((b2.val : Int), (n2 : Int)),
      ((b3.val : Int), (n3 : Int)), ((b4.val : Int), (n4 : Int)), ((b5.val : Int), (n5 : Int)),
      ((b6.val : Int), (n6 : Int))], y < PSEUDO_EOF := by
    intro y hy
    simp only [Map.keys, List.map_cons, List.map_nil, List.mem_cons, List.mem_singleton,
      List.not_mem_nil, or_false] at hy
    rcases hy with rfl | rfl | rfl | rfl | rfl | rfl <;> exact sentinel_gt_byte _
  rw [Map.incr_append_new _ PSEUDO_EOF hk]
  rfl

/-- C16, as stated, fails: on the mapping `97 -> 2000000000`, `256 -> 2000000000`
the sum of the two weights does not fit an `int`; the root gets the weight
`INT_MIN`, which is neither the sum of its children's weights nor the sum of
all counts. -/
theorem buildEncodingTreeHelper_weight_overflow :
    Map.WF [(97, 2000000000), (256, 2000000000)] ∧
      buildEncodingTreeHelper fifo [(97, 2000000000), (256, 2000000000)] =
        .ok (.node NOT_A_CHAR (-2147483648) (.leaf 97 2000000000) (.leaf 256 2000000000)) ∧
      (-2147483648 : Int) ≠ 2000000000 + 2000000000 ∧
      (-2147483648 : Int) ≠ (([(97, 2000000000), (256, 2000000000)] : Map).map Prod.snd).sum := by
  refine ⟨?_, ?_, ?_, ?_⟩
  · unfold Map.WF
    decide
  · decide
  · decide
  · decide

/-- C16, amended (the built tree is well formed). For every mapping with unique
keys and `n >= 1` entries and every tie-break rule, `buildEncodingTreeHelper`
returns a tree `t`; the merging loop ends after exactly `n - 1` iterations
(less fuel does not end it, and from `n - 1` on the result is the queue holding
`t` alone); `t` has `n - 1` internal nodes and exactly `n` leaves, which are, up
to order, the entries of the mapping with their counts as weights; a one-entry
mapping yields its single leaf. Whenever no count is negative and the sum of
all counts is at most `INT_MAX`, every internal node's weight is the sum of its
children's weights and the root's weight is the sum of all counts. -/
theorem buildEncodingTreeHelper_well_formed (tie : TieBreak) (m : Map) (hwf : m.WF)
    (hn : 1 ≤ m.size) :
    ∃ t, buildEncodingTreeHelper tie m = .ok t ∧
      (∀ fuel, mergeLoop tie fuel (enqueueLeaves tie m m.keys []) =
        if fuel < m.size - 1 then .error .outOfFuel else .ok [(t, t.count)]) ∧
      t.internalCount = m.size - 1 ∧
      t.leafEntries.length = m.size ∧
      t.leafEntries.Perm m ∧
      (∀ k v, m = [(k, v)] → t = .leaf k v) ∧
      ((∀ e ∈ m, 0 ≤ e.2) → (m.map Prod.snd).sum ≤ 2147483647 →
        t.weightsAdd ∧ t.count = (m.map Prod.snd).sum) := by
  have hm : m ≠ [] := by
    rintro rfl
    simp [Map.size] at hn
  obtain ⟨t, h1, h2⟩ := buildEncodingTreeHelper_count tie m hm
  obtain ⟨t', h4, h5⟩ := buildEncodingTreeHelper_ok tie m hm
  rw [h2] at h4
  cases h4
  rw [Map.entries_eq m hwf] at h5
  have hlen : (enqueueLeaves tie m m.keys []).length = m.size := by
    simp [enqueueLeaves_length, Map.keys, Map.size]
  have hleaves : t.leafEntries.length = m.size := h5.length_eq
  refine ⟨t, h2, ?_, ?_, hleaves, h5, ?_, ?_⟩
  · intro fuel
    by_cases hf : fuel < m.size - 1
    · rw [if_pos hf]
      exact mergeLoop_outOfFuel tie fuel _ (by omega)
    · rw [if_neg hf]
      exact mergeLoop_mono_le tie (m.size - 1) fuel (by omega) _ _ h1
  · have := internalCount_eq t
    omega
  · rintro k v rfl
    have h6 : buildEncodingTreeHelper tie [(k, v)] = .ok (.leaf k v) := by
      simp [buildEncodingTreeHelper, enqueueLeaves, Map.keys, Map.get, PriorityQueue.enqueue,
        mergeLoop, PriorityQueue.dequeue, bind, Except.bind, pure, Except.pure]
    rw [h2] at h6
    cases h6
    rfl
  · intro hnn hsum
    obtain ⟨t', ht', hw, _, _⟩ := buildEncodingTreeHelper_huffInv tie m hm
      (Map.get_nonneg m hnn) (by rw [Map.sum_get_keys m hwf]; exact hsum)
    rw [h2] at ht'
    cases ht'
    refine ⟨hw, ?_⟩
    rw [weightsAdd_count t hw]
    exact (h5.map Prod.snd).sum_eq

/-- C16 on the mapping of the input aaaab: the weights add up and the root
weighs 6. -/
theorem buildEncodingTreeHelper_well_formed_witness :
    Map.WF [(97, 4), (98, 1), (256, 1)] ∧ 1 ≤ Map.size [(97, 4), (98, 1), (256, 1)] ∧
      ∃ t, buildEncodingTreeHelper fifo [(97, 4), (98, 1), (256, 1)] = .ok t ∧
        (∀ fuel, mergeLoop fifo fuel
            (enqueueLeaves fifo [(97, 4), (98, 1), (256, 1)]
              (Map.keys [(97, 4), (98, 1), (256, 1)]) []) =
          if fuel < Map.size [(97, 4), (98, 1), (256, 1)] - 1 then .error .outOfFuel
          else .ok [(t, t.count)]) ∧
        t.internalCount = Map.size [(97, 4), (98, 1), (256, 1)] - 1 ∧
        t.leafEntries.length = Map.size [(97, 4), (98, 1), (256, 1)] ∧
        t.leafEntries.Perm [(97, 4), (98, 1), (256, 1)] ∧
        t.weightsAdd ∧
        t.count = 6 := by
  obtain ⟨t, h1, h2, h3, h4, h5, _, h7⟩ :=
    buildEncodingTreeHelper_well_formed fifo [(97, 4), (98, 1), (256, 1)]
      (by unfold Map.WF; decide) (by decide)
  obtain ⟨h8, h9⟩ := h7 (by decide) (by decide)
  exact ⟨by unfold Map.WF; decide, by decide, t, h1, h2, h3, h4, h5, h8, h9⟩

/-- C17, as stated, fails: for the input of 650000000 copies of each of the
bytes 1, 2, 3, 4 followed by 1200000000 copies of each of the bytes 5 and 6
(every count fits an `int`, their sum does not), the byte 5 occurs more often
than the byte 4 and yet gets a code of 3 bits, while 4 gets a code of 2 bits. -/
theorem frequent_symbol_longer_code_overflow :
    ∃ t, buildEncodingTreeHelper fifo
          (getCharPopulation (IStream.ofList
            (List.replicate 650000000 (1 : Byte) ++ (List.replicate 650000000 (2 : Byte) ++
              (List.replicate 650000000 (3 : Byte) ++ (List.replicate 650000000 (4 : Byte) ++
                (List.replicate 1200000000 (5 : Byte) ++
                  List.replicate 1200000000 (6 : Byte))))))) []).2 = .ok t ∧
      (getCharPopulation (IStream.ofList
            (List.replicate 650000000 (1 : Byte) ++ (List.replicate 650000000 (2 : Byte) ++
              (List.replicate 650000000 (3 : Byte) ++ (List.replicate 650000000 (4 : Byte) ++
                (List.replicate 1200000000 (5 : Byte) ++
                  List.replicate 1200000000 (6 : Byte))))))) []).2 =
        [(1, 650000000), (2, 650000000), (3, 650000000), (4, 650000000), (5, 1200000000),
          (6, 1200000000), (PSEUDO_EOF, 1)] ∧
      ((getDataCodeDict t HashMap.empty []).1.getD 5).length = 3 ∧
      ((getDataCodeDict t HashMap.empty []).1.getD 4).length = 2 := by
  have hM := charPopulationOf_six_blocks 1 2 3 4 5 6 650000000 650000000 650000000 650000000
    1200000000 1200000000 (by decide) (by decide)
  rw [charPopulationOf_def, hM]
  have hb : buildEncodingTreeHelper fifo
      [((((1 : Byte)).val : Int), ((650000000 : Nat) : Int)),
        ((((2 : Byte)).val : Int), ((650000000 : Nat) : Int)),
        ((((3 : Byte)).val : Int), ((650000000 : Nat) : Int)),
        ((((4 : Byte)).val : Int), ((650000000 : Nat) : Int)),
        ((((5 : Byte)).val : Int), ((1200000000 : Nat) : Int)),
        ((((6 : Byte)).val : Int), ((1200000000 : Nat) : Int)), (PSEUDO_EOF, 1)] =
      .ok (.node 257 452516353
        (.node 257 (-847483648)
          (.node 257 (-2147483648) (.leaf 5 1200000000) (.leaf 6 1200000000))
          (.node 257 1300000000 (.leaf 2 650000000) (.leaf 3 650000000)))
        (.node 257 1300000001 (.leaf 4 650000000)
          (.node 257 650000001 (.leaf 256 1) (.leaf 1 650000000)))) := by
    decide
  exact ⟨_, hb, rfl, by decide, by decide⟩

/-- C17, amended (a more frequent symbol gets a code that is no longer). For
every input `S` of fewer than `INT_MAX` bytes (so that the sum of all counts,
the sentinel's included, fits an `int`), with `M` the mapping
`getCharPopulation` yields for `S`, and every tie-break rule:
`buildEncodingTreeHelper` builds a tree from `M`, and for any two keys `x`, `y`
of `M` with `M[x] > M[y]` the code of `x` in the table of that tree is no
longer than the code of `y`. -/
theorem frequent_symbol_code_not_longer (tie : TieBreak) (S : List Byte) (x y : Int)
    (hlen : S.length < 2147483647)
    (hx : x ∈ (getCharPopulation (IStream.ofList S) []).2.keys)
    (hy : y ∈ (getCharPopulation (IStream.ofList S) []).2.keys)
    (hgt : (getCharPopulation (IStream.ofList S) []).2.get x >
      (getCharPopulation (IStream.ofList S) []).2.get y) :
    ∃ t, buildEncodingTreeHelper tie (getCharPopulation (IStream.ofList S) []).2 = .ok t ∧
      ((getDataCodeDict t HashMap.empty []).1.getD x).length ≤
        ((getDataCodeDict t HashMap.empty []).1.getD y).length := by
  obtain ⟨hsum, hnn⟩ := charPopulationOf_sum S (by omega)
  exact code_length_monotone tie (charPopulationOf S) (charPopulationOf_ne_nil S)
    (Map.get_nonneg _ hnn)
    (by rw [Map.sum_get_keys _ (charPopulationOf_wf S), hsum]; omega) x y hx hy hgt

/-- C17 on the input aaaab with the symbols 97 (four times) and 98 (once). -/
theorem frequent_symbol_code_not_longer_witness :
    ([97, 97, 97, 97, 98] : List Byte).length < 2147483647 ∧
      (97 : Int) ∈ (getCharPopulation (IStream.ofList [97, 97, 97, 97, 98]) []).2.keys ∧
      (98 : Int) ∈ (getCharPopulation (IStream.ofList [97, 97, 97, 97, 98]) []).2.keys ∧
      (getCharPopulation (IStream.ofList [97, 97, 97, 97, 98]) []).2.get 97 >
        (getCharPopulation (IStream.ofList [97, 97, 97, 97, 98]) []).2.get 98 ∧
      ∃ t, buildEncodingTreeHelper fifo
            (getCharPopulation (IStream.ofList [97, 97, 97, 97, 98]) []).2 = .ok t ∧
        ((getDataCodeDict t HashMap.empty []).1.getD 97).length ≤
          ((getDataCodeDict t HashMap.empty []).1.getD 98).length :=
  ⟨by decide, by decide, by decide, by decide,
    frequent_symbol_code_not_longer fifo [97, 97, 97, 97, 98] 97 98 (by decide) (by decide)
      (by decide) (by decide)⟩

end Huffman
